import Mathlib

/-!
# mediarchive: incremental fetch and reverse replay

A shallow embedding of `main.go` (`fetchUntilThenProcessInReversedOrder`,
`buildDownloader`, `buildDestPath`, `stopPredicate`, `fileExists`) and of
`twitter/client.go` (`BuildFetchMediaUrls`), followed by theorems about them.

Conventions of the embedding.

* A Go closure with hidden mutable state (`fetch`, `process`) is a function
  that takes the state and returns the new state with its result.
* The `for !stop` loop of the collection phase may run for ever (a fetcher
  that always answers `hasNext = true`), so it carries a fuel argument; `none`
  means that the fuel ran out.
* `context.Context`, `time.Sleep` and the logger have no effect on the values
  computed and are left out.
* A Go `error` is a tree of `fmt.Errorf("...: %w", err)` wrappers around an
  error produced by a callee.
-/

namespace Mediarchive

/-! ## Errors and results -/

/-- A Go `error`: an error made by a callee, or `fmt.Errorf(ctx + ": %w", inner)`. -/
inductive Error where
  | msg (text : String)
  | wrap (ctx : String) (inner : Error)
  deriving DecidableEq, Repr

/-- How a Go call of type `func(...) error` ends: it returns `nil`, it returns an
error, or it stops with a run-time panic. -/
inductive Ret where
  | nil
  | err (e : Error)
  | panic (text : String)
  deriving DecidableEq, Repr

/-- The triple `([]string, bool, error)` returned by one call of `fetch`. -/
inductive FetchResult (R : Type) where
  | ok (urls : List R) (hasNext : Bool)
  | error (err : Error)
  deriving DecidableEq, Repr

/-! ## `fetchUntilThenProcessInReversedOrder` (main.go, lines 133-171) -/

/-- State of the inner `for _, u := range urls` loop when it is left. -/
inductive Scan (U : Type) where
  | failed (e : Error)
  | done (mediaUrls : List U) (stop : Bool)
  deriving DecidableEq, Repr

/-- The inner loop, lines 149-159: parse each entry, leave the loop with `stop = true` at
the first one the predicate accepts, append the others to `mediaUrls`. -/
def scanPage {R U : Type} (parse : R → Except Error U) (stopPredicate : U → Bool) :
    List R → List U → Bool → Scan U
  | [], mediaUrls, stop => .done mediaUrls stop
  | r :: rest, mediaUrls, stop =>
    match parse r with
    | .error e => .failed (.wrap "parse url" e)
    | .ok u =>
      if stopPredicate u then .done mediaUrls true
      else scanPage parse stopPredicate rest (mediaUrls ++ [u]) stop

/-- What the collection phase hands over: the error it returned with, or the batch. -/
structure Collected (U F : Type) where
  result : Except Error (List U)
  fstate : F
  fetches : Nat

/-- The outer loop `for !stop { ... }`, lines 142-160. `fetches` counts the calls of `fetch`. -/
def collectLoop {R U F : Type} (fetch : F → FetchResult R × F) (parse : R → Except Error U)
    (stopPredicate : U → Bool) : Nat → Bool → F → List U → Nat → Option (Collected U F)
  | fuel, stop, f, mediaUrls, fetches =>
    if stop then some ⟨.ok mediaUrls, f, fetches⟩
    else match fuel with
      | 0 => none
      | fuel + 1 =>
        match fetch f with
        | (.error e, f1) => some ⟨.error (.wrap "fetch media" e), f1, fetches + 1⟩
        | (.ok urls hasNext, f1) =>
          match scanPage parse stopPredicate urls mediaUrls (stop || !hasNext) with
          | .failed e => some ⟨.error e, f1, fetches + 1⟩
          | .done mediaUrls1 stop1 =>
            collectLoop fetch parse stopPredicate fuel stop1 f1 mediaUrls1 (fetches + 1)

/-- What the replay phase did: how it ended, the arguments of the `process` calls in
call order, and the world it left. -/
structure Replayed (U W : Type) where
  ret : Ret
  processed : List U
  world : W
  deriving DecidableEq

/-- The loop `for i := 0; i < len(mediaUrls); i++`, lines 162-168, over the values `i` takes. -/
def replayLoop {U W : Type} (process : W → U → Option Error × W) (mediaUrls : List U) :
    List Nat → W → List U → Replayed U W
  | [], w, processed => ⟨.nil, processed, w⟩
  | i :: is, w, processed =>
    match mediaUrls[mediaUrls.length - i - 1]? with
    | none => ⟨.panic "index out of range", processed, w⟩
    | some u =>
      match process w u with
      | (some e, w1) => ⟨.err (.wrap "process media" e), processed ++ [u], w1⟩
      | (none, w1) => replayLoop process mediaUrls is w1 (processed ++ [u])

/-- Everything observable about one call of `fetchUntilThenProcessInReversedOrder`. -/
structure Outcome (U F W : Type) where
  ret : Ret
  processed : List U
  fetches : Nat
  fstate : F
  world : W

/-- The function `fetchUntilThenProcessInReversedOrder`. `stopPredicate` reads the world;
the collection phase does not change it. -/
def fetchUntilThenProcessInReversedOrder {R U F W : Type}
    (fetch : F → FetchResult R × F) (parse : R → Except Error U)
    (stopPredicate : W → U → Bool) (process : W → U → Option Error × W)
    (fuel : Nat) (f : F) (w : W) : Option (Outcome U F W) :=
  match collectLoop fetch parse (stopPredicate w) fuel false f [] 0 with
  | none => none
  | some ⟨.error e, f1, n⟩ => some ⟨.err e, [], n, f1, w⟩
  | some ⟨.ok mediaUrls, f1, n⟩ =>
    let r := replayLoop process mediaUrls (List.range mediaUrls.length) w []
    some ⟨r.ret, r.processed, n, f1, r.world⟩

/-! ## The downloader and the stop predicate (main.go, lines 100-109, 173-211) -/

/-- What is at a path of the destination directory: nothing, a file whose content was
not written to the end, or a file written to the end. -/
inductive FileState where
  | absent
  | incomplete
  | complete
  deriving DecidableEq, Repr

/-- The world the downloader acts on: the files, and the number of downloads attempted. -/
structure World (P : Type) where
  files : P → FileState
  attempts : Nat

/-- The function `fileExists`: `os.Stat` succeeds on any file that is there, whatever it holds. -/
def fileExists {P : Type} (files : P → FileState) (path : P) : Bool :=
  files path != .absent

/-- What the network and the operating system do to one download: the step that fails
(with the error of that step), or success. -/
inductive Download where
  | buildRequestFails (e : Error)
  | requestFails (e : Error)
  | createFails (e : Error)
  | copyFails (e : Error)
  | succeeds
  deriving DecidableEq, Repr

/-- Replace the state of one path. -/
def setFile {P : Type} [DecidableEq P] (files : P → FileState) (path : P) (s : FileState) :
    P → FileState :=
  fun q => if q = path then s else files q

/-- The closure returned by `buildDownloader`. `net a u` is what happens to download
number `a` of this world when it asks for `u`. `os.Create` makes (or truncates) the file
before `io.Copy` starts, so a failed copy leaves a file behind. -/
def buildDownloader {U P : Type} [DecidableEq P] (buildDest : U → P) (overwrite : Bool)
    (net : Nat → U → Download) : World P → U → Option Error × World P :=
  fun w u =>
    let dest := buildDest u
    if fileExists w.files dest && !overwrite then (none, w)
    else match net w.attempts u with
      | .buildRequestFails e => (some (.wrap "build http request" e), ⟨w.files, w.attempts + 1⟩)
      | .requestFails e => (some (.wrap "do http request" e), ⟨w.files, w.attempts + 1⟩)
      | .createFails e => (some (.wrap "create file" e), ⟨w.files, w.attempts + 1⟩)
      | .copyFails e =>
        (some (.wrap "copy stream" e), ⟨setFile w.files dest .incomplete, w.attempts + 1⟩)
      | .succeeds => (none, ⟨setFile w.files dest .complete, w.attempts + 1⟩)

/-- The closure `stopPredicate` of the `collect-twitter` action. -/
def stopPredicate {U P : Type} (buildDest : U → P) : World P → U → Bool :=
  fun w u => fileExists w.files (buildDest u)

/-- The call at line 118 with the closures the action builds: the stop predicate and the
downloader share `buildDest`. -/
def collectTwitter {R U F P : Type} [DecidableEq P]
    (fetch : F → FetchResult R × F) (parse : R → Except Error U) (buildDest : U → P)
    (overwrite : Bool) (net : Nat → U → Download) (fuel : Nat) (f : F) (w : World P) :
    Option (Outcome U F (World P)) :=
  fetchUntilThenProcessInReversedOrder fetch parse (stopPredicate buildDest)
    (buildDownloader buildDest overwrite net) fuel f w

/-! ## `buildDestPath` and the library functions it calls (main.go, lines 100-103)

`path.Base` and `filepath.Join` belong to the Go standard library, not to the repository;
they are written out here after their Unix implementations so that `buildDestPath` can be
evaluated. Both treat only the bytes `/` and `.` specially, which no multi-byte UTF-8
sequence contains, so working on characters gives the same result as working on bytes. -/

/-- The fields of `url.URL` that the program reads. -/
structure URL where
  path : String
  deriving DecidableEq, Repr

/-- The loop of `path.Base` that strips trailing slashes. -/
def stripTrailingSlashes (p : List Char) : List Char :=
  (p.reverse.dropWhile (fun c => c == '/')).reverse

/-- The part of a path after its last slash (all of it when it has none). -/
def afterLastSlash (p : List Char) : List Char :=
  (p.reverse.takeWhile (fun c => c != '/')).reverse

/-- Go's `path.Base`: the last element of a path; `"."` for the empty path and `"/"`
for a path of slashes only. -/
def pathBase (path : String) : String :=
  if path = "" then "."
  else
    let p := afterLastSlash (stripTrailingSlashes path.data)
    if p = [] then "/" else String.mk p

/-- The test `r == n || path[r] == '/'` of `filepath.Clean`, on the unread input. -/
def atElementEnd : List Char → Bool
  | [] => true
  | c :: _ => c == '/'

/-- The backtracking loop of `filepath.Clean` for a `..` element, on the output buffer
held last character first: `c` is the character just dropped (`out.index(out.w)`). -/
def backtrackLoop (dotdot : Nat) : Char → List Char → List Char
  | _, [] => []
  | c, c1 :: out =>
    if (c1 :: out).length > dotdot && c != '/' then backtrackLoop dotdot c1 out
    else c1 :: out

/-- The step `out.w--` followed by the backtracking loop. -/
def backtrack (dotdot : Nat) : List Char → List Char
  | [] => []
  | c :: out => backtrackLoop dotdot c out

/-- The main loop `for r < n` of `filepath.Clean`. The second argument is the unread
input `path[r:]`, the third the output buffer, last character first. Each round reads at
least one character, so the length of the path is enough fuel. -/
def cleanLoop (rooted : Bool) : Nat → List Char → List Char → Nat → List Char
  | 0, _, out, _ => out
  | _ + 1, [], out, _ => out
  | fuel + 1, c :: rest, out, dotdot =>
    if c == '/' then
      cleanLoop rooted fuel rest out dotdot
    else if c == '.' && atElementEnd rest then
      cleanLoop rooted fuel rest out dotdot
    else if c == '.' && rest.head? == some '.' && atElementEnd (rest.drop 1) then
      if out.length > dotdot then
        cleanLoop rooted fuel (rest.drop 1) (backtrack dotdot out) dotdot
      else if !rooted then
        let out1 := if out.length > 0 then '/' :: out else out
        cleanLoop rooted fuel (rest.drop 1) ('.' :: '.' :: out1) (out1.length + 2)
      else
        cleanLoop rooted fuel (rest.drop 1) out dotdot
    else
      let out1 :=
        if (rooted && out.length != 1) || (!rooted && out.length != 0) then '/' :: out else out
      cleanLoop rooted fuel ((c :: rest).dropWhile (fun x => x != '/'))
        (((c :: rest).takeWhile (fun x => x != '/')).reverse ++ out1) dotdot

/-- The function `filepath.Clean` on character lists, for a path that is not empty. -/
def cleanChars (p : List Char) : List Char :=
  let rooted := p.head? == some '/'
  let out :=
    if rooted then cleanLoop rooted p.length (p.drop 1) ['/'] 1
    else cleanLoop rooted p.length p [] 0
  if out.length = 0 then ['.'] else out.reverse

/-- Go's `filepath.Clean` on Unix. -/
def filepathClean (path : String) : String :=
  if path = "" then "." else String.mk (cleanChars path.data)

/-- Go's `filepath.Join` on Unix: the elements from the first non-empty one on, joined
with slashes, cleaned; the empty string when every element is empty. -/
def filepathJoin : List String → String
  | [] => ""
  | e :: rest =>
    if e ≠ "" then filepathClean (String.intercalate "/" (e :: rest)) else filepathJoin rest

/-- The closure `buildDestPath` of the `collect-twitter` action. -/
def buildDestPath (destDir : String) (u : URL) : String :=
  let name := pathBase u.path
  filepathJoin [destDir, name]

/-! ## `BuildFetchMediaUrls` (twitter/client.go, lines 43-106)

The response types come from the `go-twitter` library; only the fields the function reads
are kept. A Go pointer is an `Option`: `none` is the nil pointer, and reading a field
through it is a run-time panic. -/

/-- How a Go call that returns a value ends: with the value, or with a run-time panic. -/
inductive Go (α : Type) where
  | ret (a : α)
  | panic (text : String)
  deriving DecidableEq, Repr

/-- The text of the panic raised by reading a field through a nil pointer. -/
def nilDereference : String :=
  "invalid memory address or nil pointer dereference"

/-- The fields `BitRate` and `URL` of a media variant. -/
structure MediaVariant where
  bitRate : Int
  url : String
  deriving DecidableEq, Repr

/-- The fields `Type`, `Key`, `URL` and `Variants` of an included media item; `Variants`
is a slice of pointers. -/
structure Media where
  type : String
  key : String
  url : String
  variants : List (Option MediaVariant)
  deriving DecidableEq, Repr

/-- A tweet: `Attachments` is `none` for a nil pointer, else its `MediaKeys`. -/
structure Tweet where
  attachments : Option (List String)
  deriving DecidableEq, Repr

/-- The part `res.Raw` of a timeline response: `Tweets`, a slice of pointers, and
`Includes` (`none` for a nil pointer, else its `Media`, a slice of pointers). -/
structure TweetRaw where
  tweets : List (Option Tweet)
  includes : Option (List (Option Media))
  deriving DecidableEq, Repr

/-- The part `res.Meta` of a timeline response. -/
structure TimelineMeta where
  nextToken : String
  deriving DecidableEq, Repr

/-- A timeline response: the pointers `Raw` and `Meta`. -/
structure TimelineResponse where
  raw : Option TweetRaw
  meta : Option TimelineMeta
  deriving DecidableEq, Repr

/-- The Go map `media`, as the list of its assignments, latest first. -/
abbrev MediaMap := List (String × String)

/-- The assignment `media[key] = url`. -/
def mapSet (media : MediaMap) (key url : String) : MediaMap :=
  (key, url) :: media

/-- The read `media[key]`: the zero value `""` when the key is not in the map. -/
def mapLookup : MediaMap → String → String
  | [], _ => ""
  | (k, v) :: rest, key => if k = key then v else mapLookup rest key

/-- The loop over `m.Variants`, lines 78-82, that keeps the variant of greatest bit rate
seen so far. The comparison reads `v.BitRate`, then `maxBitrateVariant.BitRate`. -/
def maxBitrateLoop : List (Option MediaVariant) → Option MediaVariant → Go (Option MediaVariant)
  | [], maxBitrateVariant => .ret maxBitrateVariant
  | none :: _, _ => .panic nilDereference
  | some _ :: _, none => .panic nilDereference
  | some v :: vs, some maxBitrateVariant =>
    maxBitrateLoop vs
      (if v.bitRate > maxBitrateVariant.bitRate then some v else some maxBitrateVariant)

/-- The body of the loop over `res.Raw.Includes.Media`, lines 71-85. -/
def recordMedia (media : MediaMap) : Option Media → Go MediaMap
  | none => .panic nilDereference
  | some m =>
    if m.type = "photo" ∨ m.type = "git" then
      .ret (mapSet media m.key m.url)
    else if m.type = "video" then
      match m.variants[0]? with
      | none => .panic "index out of range [0] with length 0"
      | some first =>
        match maxBitrateLoop m.variants first with
        | .panic text => .panic text
        | .ret none => .panic nilDereference
        | .ret (some maxBitrateVariant) => .ret (mapSet media m.key maxBitrateVariant.url)
    else
      .ret media

/-- The loop over `res.Raw.Includes.Media`, lines 70-86. -/
def buildMediaMap : List (Option Media) → MediaMap → Go MediaMap
  | [], media => .ret media
  | m :: ms, media =>
    match recordMedia media m with
    | .panic text => .panic text
    | .ret media1 => buildMediaMap ms media1

/-- The loop `for i, id := range tweet.Attachments.MediaKeys`, lines 95-97. -/
def fillReversed (media : MediaMap) (picCount : Nat) :
    List (Nat × String) → List String → List String
  | [], reversedUrls => reversedUrls
  | (i, id) :: rest, reversedUrls =>
    fillReversed media picCount rest (reversedUrls.set (picCount - i - 1) (mapLookup media id))

/-- The entries one tweet contributes, lines 93-97. -/
def tweetUrls (media : MediaMap) (mediaKeys : List String) : List String :=
  fillReversed media mediaKeys.length mediaKeys.enum (List.replicate mediaKeys.length "")

/-- The loop over `res.Raw.Tweets`, lines 88-99. -/
def appendTweets (media : MediaMap) : List (Option Tweet) → List String → Go (List String)
  | [], mediaUrls => .ret mediaUrls
  | none :: _, _ => .panic nilDereference
  | some tweet :: rest, mediaUrls =>
    match tweet.attachments with
    | none => appendTweets media rest mediaUrls
    | some mediaKeys => appendTweets media rest (mediaUrls ++ tweetUrls media mediaKeys)

/-- Lines 67-100: the page computed from `res.Raw`. -/
def mediaUrlsOf (raw : TweetRaw) : Go (List String) :=
  match raw.includes with
  | none => .ret []
  | some included =>
    match buildMediaMap included [] with
    | .panic text => .panic text
    | .ret media => appendTweets media raw.tweets []

/-- The closure returned by `BuildFetchMediaUrls`. Its state is `paginationToken`;
`timeline token` is the answer of `UserTweetTimeline` to a request with that token. -/
def BuildFetchMediaUrls (timeline : String → Except Error TimelineResponse)
    (paginationToken : String) : Go (FetchResult String × String) :=
  match timeline paginationToken with
  | .error e => .ret (.error (.wrap "fetch timeline" e), paginationToken)
  | .ok res =>
    match res.raw with
    | none => .panic nilDereference
    | some raw =>
      match mediaUrlsOf raw with
      | .panic text => .panic text
      | .ret mediaUrls =>
        match res.meta with
        | none => .panic nilDereference
        | some meta => .ret (.ok mediaUrls (meta.nextToken != ""), meta.nextToken)

/-! ## Feeds -/

/-- A fetcher that answers from a fixed list of responses, one per call; used to run the
functions above on concrete feeds. -/
def feedFetch {R : Type} : List (FetchResult R) → FetchResult R × List (FetchResult R)
  | [] => (.error (.msg "no response"), [])
  | r :: rest => (r, rest)

/-- The successive calls of `fetch`, starting in state `f`, return the given responses. -/
def Serves {R F : Type} (fetch : F → FetchResult R × F) : F → List (FetchResult R) → Prop
  | _, [] => True
  | f, r :: rest => (fetch f).1 = r ∧ Serves fetch (fetch f).2 rest

/-- The state of the fetcher after it served the given number of calls. -/
def fetcherAfter {R F : Type} (fetch : F → FetchResult R × F) : Nat → F → F
  | 0, f => f
  | n + 1, f => fetcherAfter fetch n (fetch f).2

/-! ## Vocabulary of the statements -/

/-- The URL an entry parses to, if it parses. -/
def urlOf {R U : Type} (parse : R → Except Error U) (r : R) : Option U :=
  match parse r with
  | .ok u => some u
  | .error _ => none

/-- An entry is a stopping reference: it parses and the predicate accepts its URL. -/
def stops {R U : Type} (parse : R → Except Error U) (stopPredicate : U → Bool) (r : R) : Bool :=
  match parse r with
  | .ok u => stopPredicate u
  | .error _ => false

/-- A page ends the walk: it has `hasNext = false` or holds a stopping reference. -/
def pageEnds {R U : Type} (parse : R → Except Error U) (stopPredicate : U → Bool)
    (p : List R × Bool) : Bool :=
  !p.2 || p.1.any (stops parse stopPredicate)

/-- The walked pages of a feed: its pages up to and including the first that ends the walk. -/
def walkedPages {R U : Type} (parse : R → Except Error U) (stopPredicate : U → Bool) :
    List (List R × Bool) → List (List R × Bool)
  | [] => []
  | p :: ps =>
    if pageEnds parse stopPredicate p then [p] else p :: walkedPages parse stopPredicate ps

/-- The entries of a list of pages, in fetch order. -/
def entries {R : Type} (pages : List (List R × Bool)) : List R :=
  (pages.map Prod.fst).flatten

/-- The entries that precede the first stopping reference. -/
def keptEntries {R U : Type} (parse : R → Except Error U) (stopPredicate : U → Bool)
    (l : List R) : List R :=
  l.takeWhile (fun r => !stops parse stopPredicate r)

/-- The URLs of the entries of the walked pages that precede the first stopping
reference, in fetch order. -/
def keptUrls {R U : Type} (parse : R → Except Error U) (stopPredicate : U → Bool)
    (pages : List (List R × Bool)) : List U :=
  (keptEntries parse stopPredicate (entries (walkedPages parse stopPredicate pages))).filterMap
    (urlOf parse)

/-- The response of a fetch that succeeds with the given page. -/
def pageResponse {R : Type} (p : List R × Bool) : FetchResult R :=
  .ok p.1 p.2

/-- A finite feed: every page but the last has `hasNext = true`, the last has
`hasNext = false`. -/
def finiteFeed {R : Type} : List (List R × Bool) → Bool
  | [] => false
  | [p] => !p.2
  | p :: q :: ps => p.2 && finiteFeed (q :: ps)

/-- The items `n, n-1, ..., 1`, newest first. -/
def newestFirst : Nat → List Nat
  | 0 => []
  | n + 1 => (n + 1) :: newestFirst n

/-- The files of a world after the given paths were written to the end. -/
def markComplete {P : Type} [DecidableEq P] (files : P → FileState) (paths : List P) :
    P → FileState :=
  fun p => if p ∈ paths then .complete else files p

/-- The page a media map gives for a list of tweets: for each tweet with attachments,
in order, the map entries of its media keys, last key first. -/
def emittedPage (media : MediaMap) : List Tweet → List String
  | [] => []
  | tweet :: rest =>
    match tweet.attachments with
    | none => emittedPage media rest
    | some mediaKeys => (mediaKeys.map (mapLookup media)).reverse ++ emittedPage media rest

/-- Starting in world `w`, `process` succeeds on each URL of the list in turn and leaves
the world `w1`. -/
def SucceedsOn {U W : Type} (process : W → U → Option Error × W) : W → List U → W → Prop
  | w, [], w1 => w1 = w
  | w, u :: us, w1 => (process w u).1 = none ∧ SucceedsOn process (process w u).2 us w1

/-- Calling `process` on the URLs of a list in list order, up to the first failure. -/
def replaySeq {U W : Type} (process : W → U → Option Error × W) :
    List U → W → List U → Replayed U W
  | [], w, processed => ⟨.nil, processed, w⟩
  | u :: us, w, processed =>
    match process w u with
    | (some e, w1) => ⟨.err (.wrap "process media" e), processed ++ [u], w1⟩
    | (none, w1) => replaySeq process us w1 (processed ++ [u])

/-! ## The replay phase -/

theorem replayLoop_range' {U W : Type} (process : W → U → Option Error × W)
    (mediaUrls : List U) :
    ∀ (k s : Nat) (w : W) (processed : List U), s + k = mediaUrls.length →
      replayLoop process mediaUrls (List.range' s k) w processed
        = replaySeq process (mediaUrls.take k).reverse w processed := by
  intro k
  induction k with
  | zero => intro s w processed _; simp [replayLoop, replaySeq]
  | succ k ih =>
    intro s w processed hs
    have hk : k < mediaUrls.length := by omega
    have hidx : mediaUrls.length - s - 1 = k := by omega
    have htake : (mediaUrls.take (k + 1)).reverse
        = mediaUrls[k] :: (mediaUrls.take k).reverse := by
      rw [List.take_succ, List.getElem?_eq_getElem hk]
      simp
    rw [htake]
    simp only [List.range', replayLoop, replaySeq, hidx, List.getElem?_eq_getElem hk]
    rcases hp : process w mediaUrls[k] with ⟨_ | e, w1⟩
    · simp only []
      exact ih (s + 1) w1 _ (by omega)
    · simp only []

/-- The index loop calls `process` on the batch read from its end to its start. -/
theorem replayLoop_eq_replaySeq {U W : Type} (process : W → U → Option Error × W)
    (mediaUrls : List U) (w : W) :
    replayLoop process mediaUrls (List.range mediaUrls.length) w []
      = replaySeq process mediaUrls.reverse w [] := by
  rw [List.range_eq_range', replayLoop_range' process mediaUrls mediaUrls.length 0 w []
    (by omega), List.take_length]

theorem replaySeq_of_succeedsOn {U W : Type} (process : W → U → Option Error × W) :
    ∀ (us : List U) (w w1 : W) (processed : List U), SucceedsOn process w us w1 →
      replaySeq process us w processed = ⟨.nil, processed ++ us, w1⟩ := by
  intro us
  induction us with
  | nil => intro w w1 processed h; simp [SucceedsOn] at h; simp [replaySeq, h]
  | cons u us ih =>
    intro w w1 processed h
    obtain ⟨h1, h2⟩ := h
    rcases hp : process w u with ⟨r, w2⟩
    rw [hp] at h1 h2
    simp only at h1 h2
    subst h1
    simp only [replaySeq, hp]
    rw [ih w2 w1 _ h2]
    simp

theorem replaySeq_fails_at {U W : Type} (process : W → U → Option Error × W) :
    ∀ (us : List U) (x : U) (rest : List U) (w w1 w2 : W) (e : Error) (processed : List U),
      SucceedsOn process w us w1 → process w1 x = (some e, w2) →
      replaySeq process (us ++ x :: rest) w processed
        = ⟨.err (.wrap "process media" e), processed ++ us ++ [x], w2⟩ := by
  intro us
  induction us with
  | nil =>
    intro x rest w w1 w2 e processed h hx
    simp [SucceedsOn] at h
    subst h
    simp [replaySeq, hx]
  | cons u us ih =>
    intro x rest w w1 w2 e processed h hx
    obtain ⟨h1, h2⟩ := h
    rcases hp : process w u with ⟨r, w3⟩
    rw [hp] at h1 h2
    simp only at h1 h2
    subst h1
    have h3 := ih x rest w3 w1 w2 e (processed ++ [u]) h2 hx
    simp only [List.cons_append, replaySeq, hp]
    simp only [List.append_assoc, List.singleton_append] at h3 ⊢
    exact h3

/-! ## The collection phase -/

theorem collectLoop_stop {R U F : Type} (fetch : F → FetchResult R × F)
    (parse : R → Except Error U) (stopPredicate : U → Bool) (fuel : Nat) (f : F)
    (acc : List U) (n : Nat) :
    collectLoop fetch parse stopPredicate fuel true f acc n = some ⟨.ok acc, f, n⟩ := by
  cases fuel <;> simp [collectLoop]

theorem collectLoop_succ {R U F : Type} (fetch : F → FetchResult R × F)
    (parse : R → Except Error U) (stopPredicate : U → Bool) (fuel : Nat) (f : F)
    (acc : List U) (n : Nat) :
    collectLoop fetch parse stopPredicate (fuel + 1) false f acc n
      = match fetch f with
        | (.error e, f1) => some ⟨.error (.wrap "fetch media" e), f1, n + 1⟩
        | (.ok urls hasNext, f1) =>
          match scanPage parse stopPredicate urls acc (false || !hasNext) with
          | .failed e => some ⟨.error e, f1, n + 1⟩
          | .done acc1 stop1 =>
            collectLoop fetch parse stopPredicate fuel stop1 f1 acc1 (n + 1) := by
  simp [collectLoop]

theorem collectLoop_zero {R U F : Type} (fetch : F → FetchResult R × F)
    (parse : R → Except Error U) (stopPredicate : U → Bool) (f : F)
    (acc : List U) (n : Nat) :
    collectLoop fetch parse stopPredicate 0 false f acc n = none := by
  simp [collectLoop]

theorem stops_eq_false_of_not_ok {R U : Type} (parse : R → Except Error U)
    (stopPredicate : U → Bool) (r : R) (e : Error) (h : parse r = .error e) :
    stops parse stopPredicate r = false := by
  simp [stops, h]

/-- The inner loop on a page whose entries before the first stopping one all parse. -/
theorem scanPage_spec {R U : Type} (parse : R → Except Error U) (stopPredicate : U → Bool) :
    ∀ (urls : List R) (acc : List U) (s : Bool),
      (∀ r ∈ keptEntries parse stopPredicate urls, ∃ u, parse r = .ok u) →
      scanPage parse stopPredicate urls acc s
        = .done (acc ++ (keptEntries parse stopPredicate urls).filterMap (urlOf parse))
            (s || urls.any (stops parse stopPredicate)) := by
  intro urls
  induction urls with
  | nil => intro acc s _; simp [scanPage, keptEntries]
  | cons r rest ih =>
    intro acc s h
    rcases hp : parse r with e | u
    · have hs : stops parse stopPredicate r = false :=
        stops_eq_false_of_not_ok parse stopPredicate r e hp
      have hmem : r ∈ keptEntries parse stopPredicate (r :: rest) := by
        simp [keptEntries, List.takeWhile, hs]
      obtain ⟨u, hu⟩ := h r hmem
      rw [hp] at hu
      cases hu
    · by_cases hst : stopPredicate u = true
      · have hs : stops parse stopPredicate r = true := by simp [stops, hp, hst]
        simp [scanPage, hp, hst, keptEntries, List.takeWhile, hs]
      · have hs : stops parse stopPredicate r = false := by simp [stops, hp, hst]
        have hk : keptEntries parse stopPredicate (r :: rest)
            = r :: keptEntries parse stopPredicate rest := by
          simp [keptEntries, List.takeWhile, hs]
        have h1 : ∀ x ∈ keptEntries parse stopPredicate rest, ∃ u, parse x = .ok u := by
          intro x hx
          exact h x (by rw [hk]; exact List.mem_cons_of_mem _ hx)
        have hu : urlOf parse r = some u := by simp [urlOf, hp]
        simp only [scanPage, hp, hst, hk, Bool.false_eq_true, if_false]
        rw [ih (acc ++ [u]) s h1]
        simp [List.filterMap_cons, hu, hs]

theorem keptEntries_append_of_none_stops {R U : Type} (parse : R → Except Error U)
    (stopPredicate : U → Bool) (l1 l2 : List R)
    (h : l1.any (stops parse stopPredicate) = false) :
    keptEntries parse stopPredicate (l1 ++ l2) = l1 ++ keptEntries parse stopPredicate l2 := by
  induction l1 with
  | nil => simp
  | cons r rest ih =>
    simp only [List.any_cons, Bool.or_eq_false_iff] at h
    have ih1 := ih h.2
    simp only [keptEntries] at ih1
    simp only [keptEntries, List.cons_append, List.takeWhile_cons, h.1, Bool.not_false, if_true]
    rw [ih1]

theorem keptEntries_of_none_stops {R U : Type} (parse : R → Except Error U)
    (stopPredicate : U → Bool) (l : List R)
    (h : l.any (stops parse stopPredicate) = false) :
    keptEntries parse stopPredicate l = l := by
  have := keptEntries_append_of_none_stops parse stopPredicate l [] h
  simpa [keptEntries] using this

theorem entries_cons {R : Type} (p : List R × Bool) (ps : List (List R × Bool)) :
    entries (p :: ps) = p.1 ++ entries ps := by
  simp [entries]

/-- The collection phase on a feed one of whose pages ends the walk: it returns the URLs
of the entries before the first stopping reference, after one fetch per walked page. -/
theorem collectLoop_walked {R U F : Type} (fetch : F → FetchResult R × F)
    (parse : R → Except Error U) (stopPredicate : U → Bool) :
    ∀ (pages : List (List R × Bool)) (fuel : Nat) (f : F) (acc : List U) (n : Nat),
      (∃ p ∈ pages, pageEnds parse stopPredicate p = true) →
      Serves fetch f ((walkedPages parse stopPredicate pages).map pageResponse) →
      (∀ r ∈ keptEntries parse stopPredicate (entries (walkedPages parse stopPredicate pages)),
        ∃ u, parse r = .ok u) →
      (walkedPages parse stopPredicate pages).length ≤ fuel →
      collectLoop fetch parse stopPredicate fuel false f acc n
        = some ⟨.ok (acc ++ (keptEntries parse stopPredicate
                  (entries (walkedPages parse stopPredicate pages))).filterMap (urlOf parse)),
                fetcherAfter fetch (walkedPages parse stopPredicate pages).length f,
                n + (walkedPages parse stopPredicate pages).length⟩ := by
  intro pages
  induction pages with
  | nil => intro fuel f acc n h; simp at h
  | cons p ps ih =>
    intro fuel f acc n hend hserve hparse hfuel
    by_cases hp : pageEnds parse stopPredicate p = true
    · simp only [walkedPages, hp, if_true, List.map, List.length_singleton] at hserve hparse hfuel ⊢
      obtain ⟨fuel1, rfl⟩ : ∃ k, fuel = k + 1 := ⟨fuel - 1, by omega⟩
      obtain ⟨hf, -⟩ := hserve
      have hsplit : fetch f = (FetchResult.ok p.1 p.2, (fetch f).2) :=
        Prod.ext (by simpa [pageResponse] using hf) rfl
      have hent : entries [p] = p.1 := by simp [entries]
      rw [hent] at hparse ⊢
      rw [collectLoop_succ, hsplit]
      simp only [Bool.false_or]
      rw [scanPage_spec parse stopPredicate p.1 acc (!p.2) hparse]
      have hflag : (!p.2 || p.1.any (stops parse stopPredicate)) = true := hp
      simp only [hflag]
      rw [collectLoop_stop]
      simp [fetcherAfter]
    · have hp1 : pageEnds parse stopPredicate p = false := by simpa using hp
      have hnext : p.2 = true := by
        simp only [pageEnds, Bool.or_eq_false_iff] at hp1
        simpa using hp1.1
      have hnone : p.1.any (stops parse stopPredicate) = false := by
        simp only [pageEnds, Bool.or_eq_false_iff] at hp1
        exact hp1.2
      have hend1 : ∃ q ∈ ps, pageEnds parse stopPredicate q = true := by
        obtain ⟨q, hq, hqe⟩ := hend
        rcases List.mem_cons.mp hq with rfl | hq1
        · exact absurd hqe hp
        · exact ⟨q, hq1, hqe⟩
      simp only [walkedPages, hp1, Bool.false_eq_true, if_false, List.map, List.length_cons]
        at hserve hparse hfuel ⊢
      obtain ⟨fuel1, rfl⟩ : ∃ k, fuel = k + 1 := ⟨fuel - 1, by omega⟩
      obtain ⟨hf, hserve1⟩ := hserve
      have hsplit : fetch f = (FetchResult.ok p.1 p.2, (fetch f).2) :=
        Prod.ext (by simpa [pageResponse] using hf) rfl
      rw [entries_cons, keptEntries_append_of_none_stops parse stopPredicate _ _ hnone]
        at hparse ⊢
      have hparse0 : ∀ r ∈ keptEntries parse stopPredicate p.1, ∃ u, parse r = .ok u := by
        intro r hr
        rw [keptEntries_of_none_stops parse stopPredicate _ hnone] at hr
        exact hparse r (List.mem_append_left _ hr)
      have hparse1 : ∀ r ∈ keptEntries parse stopPredicate
          (entries (walkedPages parse stopPredicate ps)), ∃ u, parse r = .ok u := by
        intro r hr
        exact hparse r (List.mem_append_right _ hr)
      rw [collectLoop_succ, hsplit]
      simp only [Bool.false_or]
      rw [scanPage_spec parse stopPredicate p.1 acc (!p.2) hparse0]
      simp only [hnext, hnone, Bool.not_true, Bool.or_false]
      rw [keptEntries_of_none_stops parse stopPredicate _ hnone]
      rw [ih fuel1 (fetch f).2 _ (n + 1) hend1 hserve1 hparse1 (by omega)]
      simp [fetcherAfter, List.filterMap_append, Nat.add_assoc, Nat.add_comm 1]

/-- The collection phase on a feed whose pages neither end the walk nor fail to parse,
until a fetch fails: it returns that error, wrapped. -/
theorem collectLoop_fetch_error {R U F : Type} (fetch : F → FetchResult R × F)
    (parse : R → Except Error U) (stopPredicate : U → Bool) (e : Error) :
    ∀ (pre : List (List R × Bool)) (fuel : Nat) (f : F) (acc : List U) (n : Nat),
      (∀ p ∈ pre, pageEnds parse stopPredicate p = false) →
      (∀ r ∈ entries pre, ∃ u, parse r = .ok u) →
      Serves fetch f (pre.map pageResponse ++ [.error e]) →
      pre.length < fuel →
      collectLoop fetch parse stopPredicate fuel false f acc n
        = some ⟨.error (.wrap "fetch media" e), fetcherAfter fetch (pre.length + 1) f,
                n + (pre.length + 1)⟩ := by
  intro pre
  induction pre with
  | nil =>
    intro fuel f acc n _ _ hserve hfuel
    obtain ⟨fuel1, rfl⟩ : ∃ k, fuel = k + 1 := ⟨fuel - 1, by simp at hfuel; omega⟩
    obtain ⟨hf, -⟩ := hserve
    have hsplit : fetch f = (FetchResult.error e, (fetch f).2) := Prod.ext hf rfl
    rw [collectLoop_succ, hsplit]
    simp [fetcherAfter]
  | cons p ps ih =>
    intro fuel f acc n hne hparse hserve hfuel
    obtain ⟨fuel1, rfl⟩ : ∃ k, fuel = k + 1 := ⟨fuel - 1, by simp at hfuel; omega⟩
    obtain ⟨hf, hserve1⟩ := hserve
    have hsplit : fetch f = (FetchResult.ok p.1 p.2, (fetch f).2) :=
      Prod.ext (by simpa [pageResponse] using hf) rfl
    have hp1 : pageEnds parse stopPredicate p = false := hne p (List.mem_cons_self _ _)
    have hnext : p.2 = true := by
      simp only [pageEnds, Bool.or_eq_false_iff] at hp1
      simpa using hp1.1
    have hnone : p.1.any (stops parse stopPredicate) = false := by
      simp only [pageEnds, Bool.or_eq_false_iff] at hp1
      exact hp1.2
    have hparse0 : ∀ r ∈ keptEntries parse stopPredicate p.1, ∃ u, parse r = .ok u := by
      intro r hr
      rw [keptEntries_of_none_stops parse stopPredicate _ hnone] at hr
      exact hparse r (by rw [entries_cons]; exact List.mem_append_left _ hr)
    have hparse1 : ∀ r ∈ entries ps, ∃ u, parse r = .ok u := by
      intro r hr
      exact hparse r (by rw [entries_cons]; exact List.mem_append_right _ hr)
    rw [collectLoop_succ, hsplit]
    simp only [Bool.false_or]
    rw [scanPage_spec parse stopPredicate p.1 acc (!p.2) hparse0]
    simp only [hnext, hnone, Bool.not_true, Bool.or_false]
    rw [ih fuel1 (fetch f).2 _ (n + 1) (fun q hq => hne q (List.mem_cons_of_mem _ hq)) hparse1
      hserve1 (by simp at hfuel; omega)]
    simp only [fetcherAfter, List.length_cons]
    congr 2
    omega

/-! ## The whole function -/

/-- The function on a feed one of whose pages ends the walk: one fetch per walked page,
then `process` on the kept URLs, last collected first, up to the first failure. -/
theorem fetchUntil_walked {R U F W : Type} (fetch : F → FetchResult R × F)
    (parse : R → Except Error U) (stopPredicate : W → U → Bool)
    (process : W → U → Option Error × W) (f : F) (w : W) (pages : List (List R × Bool))
    (fuel : Nat)
    (hend : ∃ p ∈ pages, pageEnds parse (stopPredicate w) p = true)
    (hserve : Serves fetch f ((walkedPages parse (stopPredicate w) pages).map pageResponse))
    (hparse : ∀ r ∈ keptEntries parse (stopPredicate w)
        (entries (walkedPages parse (stopPredicate w) pages)), ∃ u, parse r = .ok u)
    (hfuel : (walkedPages parse (stopPredicate w) pages).length ≤ fuel) :
    fetchUntilThenProcessInReversedOrder fetch parse stopPredicate process fuel f w
      = some ⟨(replaySeq process (keptUrls parse (stopPredicate w) pages).reverse w []).ret,
              (replaySeq process (keptUrls parse (stopPredicate w) pages).reverse w []).processed,
              (walkedPages parse (stopPredicate w) pages).length,
              fetcherAfter fetch (walkedPages parse (stopPredicate w) pages).length f,
              (replaySeq process (keptUrls parse (stopPredicate w) pages).reverse w []).world⟩ := by
  unfold fetchUntilThenProcessInReversedOrder
  rw [collectLoop_walked fetch parse (stopPredicate w) pages fuel f [] 0 hend hserve hparse hfuel]
  simp only [List.nil_append, Nat.zero_add, replayLoop_eq_replaySeq]
  rfl

/-- Claim C1. On a feed one of whose pages ends the walk (it has `hasNext = false` or
holds a reference the predicate accepts), when the fetches of the walked pages succeed,
the entries before the first stopping reference parse and `process` succeeds on each of
them, the function calls `process` exactly on the URLs of those entries, last collected
first, fetches exactly the walked pages and returns `nil`. -/
theorem fetchUntil_processes_kept_in_reverse {R U F W : Type}
    (fetch : F → FetchResult R × F) (parse : R → Except Error U)
    (stopPredicate : W → U → Bool) (process : W → U → Option Error × W)
    (f : F) (w w1 : W) (pages : List (List R × Bool)) (fuel : Nat)
    (hend : ∃ p ∈ pages, pageEnds parse (stopPredicate w) p = true)
    (hserve : Serves fetch f ((walkedPages parse (stopPredicate w) pages).map pageResponse))
    (hparse : ∀ r ∈ keptEntries parse (stopPredicate w)
        (entries (walkedPages parse (stopPredicate w) pages)), ∃ u, parse r = .ok u)
    (hprocess : SucceedsOn process w (keptUrls parse (stopPredicate w) pages).reverse w1)
    (hfuel : (walkedPages parse (stopPredicate w) pages).length ≤ fuel) :
    fetchUntilThenProcessInReversedOrder fetch parse stopPredicate process fuel f w
      = some ⟨.nil, (keptUrls parse (stopPredicate w) pages).reverse,
              (walkedPages parse (stopPredicate w) pages).length,
              fetcherAfter fetch (walkedPages parse (stopPredicate w) pages).length f, w1⟩ := by
  rw [fetchUntil_walked fetch parse stopPredicate process f w pages fuel hend hserve hparse hfuel,
    replaySeq_of_succeedsOn process _ w w1 [] hprocess]
  simp

/-- Witness of C1: the pages `[R5,R4,R3]`, `[R2,R1]`, nothing stopping, give the calls
`R1,R2,R3,R4,R5` after two fetches. -/
theorem fetchUntil_processes_kept_in_reverse_witness :
    fetchUntilThenProcessInReversedOrder feedFetch (fun r : String => Except.ok r)
        (fun (_ : Unit) (_ : String) => false) (fun w _ => (none, w)) 2
        [FetchResult.ok ["R5", "R4", "R3"] true, FetchResult.ok ["R2", "R1"] false] ()
      = some ⟨.nil, ["R1", "R2", "R3", "R4", "R5"], 2, [], ()⟩ := by
  have h := fetchUntil_processes_kept_in_reverse feedFetch (fun r : String => Except.ok r)
    (fun (_ : Unit) (_ : String) => false) (fun w _ => (none, w))
    [FetchResult.ok ["R5", "R4", "R3"] true, FetchResult.ok ["R2", "R1"] false] () ()
    [(["R5", "R4", "R3"], true), (["R2", "R1"], false)] 2
    ⟨(["R2", "R1"], false), by simp, by simp [pageEnds]⟩
    (by simp [walkedPages, pageEnds, stops, Serves, feedFetch, pageResponse])
    (by intro r _; exact ⟨r, rfl⟩)
    (by simp [keptUrls, walkedPages, pageEnds, stops, entries, keptEntries, urlOf, SucceedsOn])
    (by simp [walkedPages, pageEnds, stops])
  simpa [keptUrls, walkedPages, pageEnds, stops, entries, keptEntries, urlOf, fetcherAfter,
    feedFetch] using h

/-- Claim C5. When the collected batch is `newer ++ x :: older` (newest first), `process`
succeeds on the entries of `older` taken from the last to the first and then fails on
`x` with `e`, the function calls `process` exactly on those entries of `older` and then
on `x`, on no entry of `newer`, and returns the error `e` wrapped. -/
theorem fetchUntil_aborts_on_first_failure {R U F W : Type}
    (fetch : F → FetchResult R × F) (parse : R → Except Error U)
    (stopPredicate : W → U → Bool) (process : W → U → Option Error × W)
    (fuel : Nat) (f f1 : F) (w w1 w2 : W) (n : Nat) (newer older : List U) (x : U) (e : Error)
    (hbatch : collectLoop fetch parse (stopPredicate w) fuel false f [] 0
      = some ⟨.ok (newer ++ x :: older), f1, n⟩)
    (holder : SucceedsOn process w older.reverse w1)
    (hfail : process w1 x = (some e, w2)) :
    fetchUntilThenProcessInReversedOrder fetch parse stopPredicate process fuel f w
      = some ⟨.err (.wrap "process media" e), older.reverse ++ [x], n, f1, w2⟩ := by
  unfold fetchUntilThenProcessInReversedOrder
  rw [hbatch]
  simp only [replayLoop_eq_replaySeq, List.reverse_append, List.reverse_cons, List.append_assoc,
    List.singleton_append]
  rw [replaySeq_fails_at process older.reverse x newer.reverse w w1 w2 e [] holder hfail]
  simp

/-- Witness of C5: the batch `[1, 2, 3]`, with `process` failing on `2` only. -/
theorem fetchUntil_aborts_on_first_failure_witness :
    fetchUntilThenProcessInReversedOrder feedFetch (fun r : Nat => Except.ok r)
        (fun (_ : Unit) (_ : Nat) => false)
        (fun w u => (if u = 2 then some (.msg "boom") else none, w)) 1
        [FetchResult.ok [1, 2, 3] false] ()
      = some ⟨.err (.wrap "process media" (.msg "boom")), [3, 2], 1, [], ()⟩ := by
  have h := fetchUntil_aborts_on_first_failure feedFetch (fun r : Nat => Except.ok r)
    (fun (_ : Unit) (_ : Nat) => false)
    (fun w u => (if u = 2 then some (.msg "boom") else none, w)) 1
    [FetchResult.ok [1, 2, 3] false] [] () () () 1 [1] [3] 2 (.msg "boom")
    rfl (by simp [SucceedsOn]) (by simp)
  simpa using h

/-- Claim C6. When the pages fetched so far neither ended the walk nor failed to parse
and the next fetch returns an error, the function returns that error wrapped, calls
`process` zero times and leaves the world as it was. -/
theorem fetchUntil_fetch_error_processes_nothing {R U F W : Type}
    (fetch : F → FetchResult R × F) (parse : R → Except Error U)
    (stopPredicate : W → U → Bool) (process : W → U → Option Error × W)
    (f : F) (w : W) (pre : List (List R × Bool)) (e : Error) (fuel : Nat)
    (hpre : ∀ p ∈ pre, pageEnds parse (stopPredicate w) p = false)
    (hparse : ∀ r ∈ entries pre, ∃ u, parse r = .ok u)
    (hserve : Serves fetch f (pre.map pageResponse ++ [.error e]))
    (hfuel : pre.length < fuel) :
    fetchUntilThenProcessInReversedOrder fetch parse stopPredicate process fuel f w
      = some ⟨.err (.wrap "fetch media" e), [], pre.length + 1,
              fetcherAfter fetch (pre.length + 1) f, w⟩ := by
  unfold fetchUntilThenProcessInReversedOrder
  rw [collectLoop_fetch_error fetch parse (stopPredicate w) e pre fuel f [] 0 hpre hparse hserve
    hfuel]
  simp

/-- Witness of C6: a first page contributes two references, the second fetch fails. -/
theorem fetchUntil_fetch_error_processes_nothing_witness :
    fetchUntilThenProcessInReversedOrder feedFetch (fun r : Nat => Except.ok r)
        (fun (_ : Unit) (_ : Nat) => false) (fun w _ => (none, w)) 2
        [FetchResult.ok [2, 1] true, FetchResult.error (.msg "rate limit")] ()
      = some ⟨.err (.wrap "fetch media" (.msg "rate limit")), [], 2, [], ()⟩ := by
  have h := fetchUntil_fetch_error_processes_nothing feedFetch (fun r : Nat => Except.ok r)
    (fun (_ : Unit) (_ : Nat) => false) (fun w _ => (none, w))
    [FetchResult.ok [2, 1] true, FetchResult.error (.msg "rate limit")] () [([2, 1], true)]
    (.msg "rate limit") 2
    (by simp [pageEnds, stops]) (by intro r _; exact ⟨r, rfl⟩)
    (by simp [Serves, feedFetch, pageResponse]) (by simp)
  simpa [fetcherAfter, feedFetch] using h

/-! ## Variant selection and the emitted page -/

/-- On a list of variants without nil entries the loop returns either the variant it
started with, when no variant has a greater bit rate, or the first variant of greatest
bit rate. -/
theorem maxBitrateLoop_spec :
    ∀ (vs : List MediaVariant) (start : MediaVariant),
      ∃ r, maxBitrateLoop (vs.map some) (some start) = .ret (some r) ∧
        ((r = start ∧ ∀ x ∈ vs, x.bitRate ≤ start.bitRate) ∨
          ∃ before v after, vs = before ++ v :: after ∧ r = v ∧
            start.bitRate < v.bitRate ∧ (∀ x ∈ before, x.bitRate < v.bitRate) ∧
            (∀ x ∈ after, x.bitRate ≤ v.bitRate)) := by
  intro vs
  induction vs with
  | nil => intro start; exact ⟨start, by simp [maxBitrateLoop], Or.inl ⟨rfl, by simp⟩⟩
  | cons x xs ih =>
    intro start
    by_cases hx : x.bitRate > start.bitRate
    · obtain ⟨r, hr, hcases⟩ := ih x
      refine ⟨r, by simp [maxBitrateLoop, hx, hr], Or.inr ?_⟩
      rcases hcases with ⟨h1, h2⟩ | ⟨before, v, after, h1, h2, h3, h4, h5⟩
      · exact ⟨[], x, xs, rfl, h1, hx, by simp, h2⟩
      · refine ⟨x :: before, v, after, by simp [h1], h2, by omega, ?_, h5⟩
        intro y hy
        rcases List.mem_cons.mp hy with rfl | hy1
        · exact h3
        · exact h4 y hy1
    · obtain ⟨r, hr, hcases⟩ := ih start
      refine ⟨r, by simp [maxBitrateLoop, hx, hr], ?_⟩
      rcases hcases with ⟨h1, h2⟩ | ⟨before, v, after, h1, h2, h3, h4, h5⟩
      · left
        refine ⟨h1, ?_⟩
        intro y hy
        rcases List.mem_cons.mp hy with rfl | hy1
        · omega
        · exact h2 y hy1
      · right
        refine ⟨x :: before, v, after, by simp [h1], h2, h3, ?_, h5⟩
        intro y hy
        rcases List.mem_cons.mp hy with rfl | hy1
        · omega
        · exact h4 y hy1

theorem variants_without_nil (l : List (Option MediaVariant)) (h : ∀ e ∈ l, e ≠ none) :
    ∃ vs : List MediaVariant, l = vs.map some := by
  induction l with
  | nil => exact ⟨[], rfl⟩
  | cons e l ih =>
    obtain ⟨vs, hvs⟩ := ih (fun x hx => h x (List.mem_cons_of_mem _ hx))
    cases e with
    | none => exact absurd rfl (h none (List.mem_cons_self _ _))
    | some v => exact ⟨v :: vs, by simp [hvs]⟩

/-- The loop body on a `video` item whose variant list is not empty and has no nil entry:
it records the URL of the first variant of greatest bit rate. -/
theorem recordMedia_video (media : MediaMap) (m : Media) (htype : m.type = "video")
    (hvariants : m.variants ≠ [] ∧ ∀ e ∈ m.variants, e ≠ none) :
    ∃ (before : List MediaVariant) (v : MediaVariant) (after : List MediaVariant),
      m.variants = before.map some ++ some v :: after.map some ∧
      (∀ x ∈ before, x.bitRate < v.bitRate) ∧ (∀ x ∈ after, x.bitRate ≤ v.bitRate) ∧
      recordMedia media (some m) = .ret (mapSet media m.key v.url) := by
  obtain ⟨vs, hvs⟩ := variants_without_nil m.variants hvariants.2
  obtain ⟨first, rest, hm⟩ : ∃ first rest, vs = first :: rest := by
    cases vs with
    | nil => exact absurd (by simpa using hvs) hvariants.1
    | cons a l => exact ⟨a, l, rfl⟩
  subst hm
  obtain ⟨r, hr, hcases⟩ := maxBitrateLoop_spec rest first
  have hloop : maxBitrateLoop m.variants (some first) = .ret (some r) := by
    rw [hvs]
    simp [maxBitrateLoop, hr]
  have hrec : recordMedia media (some m) = .ret (mapSet media m.key r.url) := by
    have h0 : m.variants[0]? = some (some first) := by simp [hvs]
    simp [recordMedia, htype, h0, hloop]
  rcases hcases with ⟨h1, h2⟩ | ⟨before, v, after, h1, h2, h3, h4, h5⟩
  · subst h1
    exact ⟨[], r, rest, by simp [hvs], by simp, h2, hrec⟩
  · subst h2
    refine ⟨first :: before, r, after, by simp [hvs, h1], ?_, h5, hrec⟩
    intro x hx
    rcases List.mem_cons.mp hx with rfl | hx1
    · exact h3
    · exact h4 x hx1

theorem mapLookup_mapSet_ne (media : MediaMap) (key url k : String) (h : key ≠ k) :
    mapLookup (mapSet media key url) k = mapLookup media k := by
  simp [mapSet, mapLookup, h]

/-- The loop body returns on every item that is not nil and, when it is a `video`, has a
non-empty variant list without nil entries; it changes the map at the key of the item
only. -/
theorem recordMedia_returns (media : MediaMap) (x : Media)
    (hvideo : x.type = "video" → x.variants ≠ [] ∧ ∀ e ∈ x.variants, e ≠ none) :
    ∃ media1, recordMedia media (some x) = .ret media1 ∧
      ∀ k, x.key ≠ k → mapLookup media1 k = mapLookup media k := by
  by_cases h1 : x.type = "photo" ∨ x.type = "git"
  · exact ⟨mapSet media x.key x.url, by simp [recordMedia, h1],
      fun k hk => mapLookup_mapSet_ne _ _ _ _ hk⟩
  · by_cases h2 : x.type = "video"
    · obtain ⟨before, v, after, -, -, -, hrec⟩ := recordMedia_video media x h2 (hvideo h2)
      exact ⟨_, hrec, fun k hk => mapLookup_mapSet_ne _ _ _ _ hk⟩
    · exact ⟨media, by simp [recordMedia, h1, h2], fun _ _ => rfl⟩

theorem buildMediaMap_returns :
    ∀ (items : List Media) (media : MediaMap),
      (∀ x ∈ items, x.type = "video" → x.variants ≠ [] ∧ ∀ e ∈ x.variants, e ≠ none) →
      ∃ media1, buildMediaMap (items.map some) media = .ret media1 ∧
        ∀ k, (∀ x ∈ items, x.key ≠ k) → mapLookup media1 k = mapLookup media k := by
  intro items
  induction items with
  | nil => intro media _; exact ⟨media, rfl, fun _ _ => rfl⟩
  | cons x xs ih =>
    intro media h
    obtain ⟨m1, hm1, hl1⟩ := recordMedia_returns media x (h x (List.mem_cons_self _ _))
    obtain ⟨m2, hm2, hl2⟩ := ih m1 (fun y hy => h y (List.mem_cons_of_mem _ hy))
    refine ⟨m2, by simp [buildMediaMap, hm1, hm2], ?_⟩
    intro k hk
    rw [hl2 k (fun y hy => hk y (List.mem_cons_of_mem _ hy)),
      hl1 k (hk x (List.mem_cons_self _ _))]

theorem buildMediaMap_append :
    ∀ (a b : List (Option Media)) (media media1 : MediaMap),
      buildMediaMap a media = .ret media1 →
      buildMediaMap (a ++ b) media = buildMediaMap b media1 := by
  intro a
  induction a with
  | nil =>
    intro b media media1 h
    simp only [buildMediaMap, Go.ret.injEq] at h
    simp [h]
  | cons x xs ih =>
    intro b media media1 h
    simp only [List.cons_append, buildMediaMap] at h ⊢
    cases hr : recordMedia media x with
    | panic text => rw [hr] at h; simp at h
    | ret m1 =>
      rw [hr] at h
      simp only at h ⊢
      exact ih b m1 media1 h

theorem drop_set_self {α : Type} (x : α) :
    ∀ (l : List α) (j : Nat), j < l.length → (l.set j x).drop j = x :: l.drop (j + 1) := by
  intro l
  induction l with
  | nil => intro j h; simp at h
  | cons a l ih =>
    intro j h
    cases j with
    | zero => simp
    | succ j =>
      simp only [List.length_cons] at h
      simpa using ih j (by omega)

/-- The loop that fills `reversedUrls` writes the map entries of the keys into the first
places of the buffer, last key first. -/
theorem fillReversed_spec (media : MediaMap) (picCount : Nat) :
    ∀ (keys : List String) (i : Nat) (buf : List String),
      i + keys.length = picCount → buf.length = picCount →
      fillReversed media picCount (keys.enumFrom i) buf
        = (keys.map (mapLookup media)).reverse ++ buf.drop keys.length := by
  intro keys
  induction keys with
  | nil => intro i buf _ _; simp [fillReversed]
  | cons k ks ih =>
    intro i buf hi hbuf
    simp only [List.length_cons] at hi
    have hidx : picCount - i - 1 = ks.length := by omega
    simp only [List.enumFrom_cons, fillReversed, hidx]
    rw [ih (i + 1) _ (by omega) (by simpa using hbuf),
      drop_set_self _ buf ks.length (by omega)]
    simp

theorem tweetUrls_eq (media : MediaMap) (mediaKeys : List String) :
    tweetUrls media mediaKeys = (mediaKeys.map (mapLookup media)).reverse := by
  unfold tweetUrls List.enum
  rw [fillReversed_spec media mediaKeys.length mediaKeys 0 _ (by omega) (by simp)]
  simp

theorem appendTweets_returns (media : MediaMap) :
    ∀ (tweets : List Tweet) (mediaUrls : List String),
      appendTweets media (tweets.map some) mediaUrls
        = .ret (mediaUrls ++ emittedPage media tweets) := by
  intro tweets
  induction tweets with
  | nil => intro mediaUrls; simp [appendTweets, emittedPage]
  | cons t ts ih =>
    intro mediaUrls
    cases ha : t.attachments with
    | none => simp [appendTweets, emittedPage, ha, ih]
    | some keys => simp [appendTweets, emittedPage, ha, ih, tweetUrls_eq]

/-- Claim C9, as amended. On a timeline response without nil pointers in which every
`video` item has a non-empty variant list, for a `video` item whose key no later included
item carries: the fetcher returns, the map it built holds for the key of the item the URL
of a variant `v` of the item such that every variant before `v` has a smaller bit rate
and every variant after it a bit rate that is not greater, and the page it returns holds
the map entries of the attached keys. -/
theorem BuildFetchMediaUrls_records_first_max_bitrate
    (timeline : String → Except Error TimelineResponse) (paginationToken : String)
    (res : TimelineResponse) (raw : TweetRaw) (meta : TimelineMeta)
    (items before1 after1 : List Media) (m : Media) (tweets : List Tweet)
    (htimeline : timeline paginationToken = .ok res)
    (hraw : res.raw = some raw) (hmeta : res.meta = some meta)
    (hincludes : raw.includes = some (items.map some))
    (htweets : raw.tweets = tweets.map some)
    (hvideos : ∀ x ∈ items, x.type = "video" → x.variants ≠ [] ∧ ∀ e ∈ x.variants, e ≠ none)
    (hitems : items = before1 ++ m :: after1)
    (htype : m.type = "video")
    (hlast : ∀ x ∈ after1, x.key ≠ m.key) :
    ∃ (media : MediaMap) (before : List MediaVariant) (v : MediaVariant)
        (after : List MediaVariant),
      m.variants = before.map some ++ some v :: after.map some ∧
      (∀ x ∈ before, x.bitRate < v.bitRate) ∧ (∀ x ∈ after, x.bitRate ≤ v.bitRate) ∧
      (∀ x, some x ∈ m.variants → x.bitRate ≤ v.bitRate) ∧
      buildMediaMap (items.map some) [] = .ret media ∧
      mapLookup media m.key = v.url ∧
      BuildFetchMediaUrls timeline paginationToken
        = .ret (.ok (emittedPage media tweets) (meta.nextToken != ""), meta.nextToken) := by
  subst hitems
  have hv1 : ∀ x ∈ before1, x.type = "video" →
      x.variants ≠ [] ∧ ∀ e ∈ x.variants, e ≠ none :=
    fun x hx => hvideos x (List.mem_append_left _ hx)
  have hv2 : ∀ x ∈ after1, x.type = "video" →
      x.variants ≠ [] ∧ ∀ e ∈ x.variants, e ≠ none :=
    fun x hx => hvideos x (List.mem_append_right _ (List.mem_cons_of_mem _ hx))
  have hvm := hvideos m (List.mem_append_right _ (List.mem_cons_self _ _)) htype
  obtain ⟨m1, hm1, -⟩ := buildMediaMap_returns before1 [] hv1
  obtain ⟨before, v, after, hsplit, hb, ha, hrec⟩ := recordMedia_video m1 m htype hvm
  obtain ⟨m2, hm2, hl2⟩ := buildMediaMap_returns after1 (mapSet m1 m.key v.url) hv2
  have hbuild : buildMediaMap ((before1 ++ m :: after1).map some) [] = .ret m2 := by
    rw [List.map_append, buildMediaMap_append _ _ [] m1 hm1]
    simp [buildMediaMap, hrec, hm2]
  have hlookup : mapLookup m2 m.key = v.url := by
    rw [hl2 m.key hlast]
    simp [mapSet, mapLookup]
  refine ⟨m2, before, v, after, hsplit, hb, ha, ?_, hbuild, hlookup, ?_⟩
  · intro x hx
    rw [hsplit] at hx
    simp only [List.mem_append, List.mem_map, List.mem_cons, Option.some.injEq] at hx
    rcases hx with ⟨y, hy, rfl⟩ | rfl | ⟨y, hy, rfl⟩
    · exact le_of_lt (hb _ hy)
    · exact le_refl _
    · exact ha _ hy
  · have hmedia : mediaUrlsOf raw = .ret (emittedPage m2 tweets) := by
      unfold mediaUrlsOf
      rw [hincludes]
      simp only []
      rw [hbuild]
      simp only []
      rw [htweets, appendTweets_returns]
      simp
    unfold BuildFetchMediaUrls
    rw [htimeline]
    simp only [hraw, hmedia, hmeta]

/-- Witness of C9: a photo and a video with bit rates 1, 5, 5, 2; the tweet that attaches
both gets the URL of the first variant of bit rate 5, then the URL of the photo. -/
theorem BuildFetchMediaUrls_records_first_max_bitrate_witness :
    BuildFetchMediaUrls
        (fun _ => .ok ⟨some ⟨[some ⟨some ["p", "k"]⟩],
          some [some ⟨"photo", "p", "P", []⟩,
            some ⟨"video", "k", "", [some ⟨1, "a"⟩, some ⟨5, "b"⟩, some ⟨5, "c"⟩, some ⟨2, "d"⟩]⟩]⟩,
          some ⟨"next"⟩⟩) ""
      = .ret (.ok ["b", "P"] true, "next") ∧
    ∃ (media : MediaMap) (before : List MediaVariant) (v : MediaVariant)
        (after : List MediaVariant),
      [some (⟨1, "a"⟩ : MediaVariant), some ⟨5, "b"⟩, some ⟨5, "c"⟩, some ⟨2, "d"⟩]
        = before.map some ++ some v :: after.map some ∧
      (∀ x ∈ before, x.bitRate < v.bitRate) ∧ (∀ x ∈ after, x.bitRate ≤ v.bitRate) ∧
      (∀ x, some x ∈ [some (⟨1, "a"⟩ : MediaVariant), some ⟨5, "b"⟩, some ⟨5, "c"⟩, some ⟨2, "d"⟩] →
        x.bitRate ≤ v.bitRate) ∧
      buildMediaMap ([(⟨"photo", "p", "P", []⟩ : Media),
          ⟨"video", "k", "", [some ⟨1, "a"⟩, some ⟨5, "b"⟩, some ⟨5, "c"⟩, some ⟨2, "d"⟩]⟩].map some) []
        = .ret media ∧
      mapLookup media "k" = v.url ∧
      BuildFetchMediaUrls
          (fun _ => .ok ⟨some ⟨[some ⟨some ["p", "k"]⟩],
            some [some ⟨"photo", "p", "P", []⟩,
              some ⟨"video", "k", "",
                [some ⟨1, "a"⟩, some ⟨5, "b"⟩, some ⟨5, "c"⟩, some ⟨2, "d"⟩]⟩]⟩,
            some ⟨"next"⟩⟩) ""
        = .ret (.ok (emittedPage media [⟨some ["p", "k"]⟩]) ((⟨"next"⟩ : TimelineMeta).nextToken != ""),
            (⟨"next"⟩ : TimelineMeta).nextToken) :=
  ⟨by decide,
   BuildFetchMediaUrls_records_first_max_bitrate
     (fun _ => .ok ⟨some ⟨[some ⟨some ["p", "k"]⟩],
       some [some ⟨"photo", "p", "P", []⟩,
         some ⟨"video", "k", "", [some ⟨1, "a"⟩, some ⟨5, "b"⟩, some ⟨5, "c"⟩, some ⟨2, "d"⟩]⟩]⟩,
       some ⟨"next"⟩⟩) ""
     ⟨some ⟨[some ⟨some ["p", "k"]⟩],
       some [some ⟨"photo", "p", "P", []⟩,
         some ⟨"video", "k", "", [some ⟨1, "a"⟩, some ⟨5, "b"⟩, some ⟨5, "c"⟩, some ⟨2, "d"⟩]⟩]⟩,
       some ⟨"next"⟩⟩
     ⟨[some ⟨some ["p", "k"]⟩],
       some [some ⟨"photo", "p", "P", []⟩,
         some ⟨"video", "k", "", [some ⟨1, "a"⟩, some ⟨5, "b"⟩, some ⟨5, "c"⟩, some ⟨2, "d"⟩]⟩]⟩
     ⟨"next"⟩
     [⟨"photo", "p", "P", []⟩,
       ⟨"video", "k", "", [some ⟨1, "a"⟩, some ⟨5, "b"⟩, some ⟨5, "c"⟩, some ⟨2, "d"⟩]⟩]
     [⟨"photo", "p", "P", []⟩] []
     ⟨"video", "k", "", [some ⟨1, "a"⟩, some ⟨5, "b"⟩, some ⟨5, "c"⟩, some ⟨2, "d"⟩]⟩
     [⟨some ["p", "k"]⟩]
     rfl rfl rfl rfl rfl (by decide) rfl rfl (by simp)⟩

/-- Claim C9 as stated fails: a `video` item with one variant is followed by a photo with
the same key, and the URL the fetcher holds and emits for that key is the URL of the
photo; when a variant of the item is a nil pointer the fetcher records nothing, it panics. -/
theorem BuildFetchMediaUrls_later_item_replaces_video_url :
    BuildFetchMediaUrls
        (fun _ => .ok ⟨some ⟨[some ⟨some ["k"]⟩],
          some [some ⟨"video", "k", "", [some ⟨5, "a"⟩]⟩, some ⟨"photo", "k", "P", []⟩]⟩,
          some ⟨""⟩⟩) ""
      = .ret (.ok ["P"] false, "") ∧
    buildMediaMap [some ⟨"video", "k", "", [some ⟨5, "a"⟩]⟩, some ⟨"photo", "k", "P", []⟩] []
      = .ret [("k", "P"), ("k", "a")] ∧
    BuildFetchMediaUrls
        (fun _ => .ok ⟨some ⟨[some ⟨some ["k"]⟩],
          some [some ⟨"video", "k", "", [some ⟨5, "a"⟩, none]⟩]⟩, some ⟨""⟩⟩) ""
      = .panic nilDereference := by
  decide

/-- Claim C7, the code at the failing input: on a response that includes a `video` item
without variants the fetcher does not return an error, it panics on `m.Variants[0]`. -/
theorem BuildFetchMediaUrls_empty_variants_panics :
    BuildFetchMediaUrls
        (fun _ => .ok ⟨some ⟨[some ⟨some ["k"]⟩], some [some ⟨"video", "k", "", []⟩]⟩,
          some ⟨""⟩⟩) ""
      = .panic "index out of range [0] with length 0" := by
  decide

/-- Claim C8, the code at the failing input: a media item of type `animated_gif` is not
put into the map, so the key of a tweet that attaches it is emitted as the empty string,
which is not the URL of the item. -/
theorem BuildFetchMediaUrls_emits_empty_string :
    BuildFetchMediaUrls
        (fun _ => .ok ⟨some ⟨[some ⟨some ["k"]⟩],
          some [some ⟨"animated_gif", "k", "https://example.com/a.gif",
            [some ⟨0, "https://example.com/a.mp4"⟩]⟩]⟩, some ⟨""⟩⟩) ""
      = .ret (.ok [""] false, "") := by
  decide

/-! ## Destination paths -/

theorem atElementEnd_append_slash (t s : List Char) :
    atElementEnd (t ++ '/' :: s) = atElementEnd t := by
  cases t <;> simp [atElementEnd]

theorem takeWhile_append_slash (l s : List Char) :
    (l ++ '/' :: s).takeWhile (fun x => x != '/') = l.takeWhile (fun x => x != '/') := by
  induction l with
  | nil => simp
  | cons a l ih =>
    by_cases h : a = '/'
    · simp [List.takeWhile_cons, h]
    · simp [List.takeWhile_cons, h, ih]

theorem dropWhile_append_slash (l s : List Char) :
    (l ++ '/' :: s).dropWhile (fun x => x != '/')
      = l.dropWhile (fun x => x != '/') ++ '/' :: s := by
  induction l with
  | nil => simp
  | cons a l ih =>
    by_cases h : a = '/'
    · simp [List.dropWhile_cons, h]
    · simp [List.dropWhile_cons, h, ih]

theorem dropWhile_length_le (l : List Char) :
    (l.dropWhile (fun x => x != '/')).length ≤ l.length := by
  induction l with
  | nil => simp
  | cons a l ih =>
    by_cases h : a = '/'
    · simp [List.dropWhile_cons, h]
    · simp only [List.dropWhile_cons, bne_iff_ne, ne_eq, h, not_false_eq_true, decide_True,
        if_true, List.length_cons]
      omega

theorem cleanLoop_nil (rooted : Bool) (fuel : Nat) (out : List Char) (dotdot : Nat) :
    cleanLoop rooted fuel [] out dotdot = out := by
  cases fuel <;> simp [cleanLoop]

theorem cleanLoop_cons (rooted : Bool) (fuel : Nat) (c : Char) (rest out : List Char)
    (dotdot : Nat) :
    cleanLoop rooted (fuel + 1) (c :: rest) out dotdot
      = if c == '/' then
          cleanLoop rooted fuel rest out dotdot
        else if c == '.' && atElementEnd rest then
          cleanLoop rooted fuel rest out dotdot
        else if c == '.' && rest.head? == some '.' && atElementEnd (rest.drop 1) then
          if out.length > dotdot then
            cleanLoop rooted fuel (rest.drop 1) (backtrack dotdot out) dotdot
          else if !rooted then
            cleanLoop rooted fuel (rest.drop 1)
              ('.' :: '.' :: (if out.length > 0 then '/' :: out else out))
              ((if out.length > 0 then '/' :: out else out).length + 2)
          else
            cleanLoop rooted fuel (rest.drop 1) out dotdot
        else
          cleanLoop rooted fuel ((c :: rest).dropWhile (fun x => x != '/'))
            (((c :: rest).takeWhile (fun x => x != '/')).reverse ++
              (if (rooted && out.length != 1) || (!rooted && out.length != 0) then '/' :: out
               else out)) dotdot := by
  rfl

/-- A trailing `/.` does not change what the main loop of `filepath.Clean` computes. -/
theorem cleanLoop_slash_dot (rooted : Bool) :
    ∀ (n : Nat) (rest : List Char), rest.length ≤ n →
      ∀ (fuel fuel1 : Nat) (out : List Char) (dotdot : Nat),
        rest.length + 2 ≤ fuel → rest.length ≤ fuel1 →
        cleanLoop rooted fuel (rest ++ ['/', '.']) out dotdot
          = cleanLoop rooted fuel1 rest out dotdot := by
  have base : ∀ (fuel fuel1 : Nat) (out : List Char) (dotdot : Nat), 2 ≤ fuel →
      cleanLoop rooted fuel ([] ++ ['/', '.']) out dotdot
        = cleanLoop rooted fuel1 [] out dotdot := by
    intro fuel fuel1 out dotdot hf
    obtain ⟨k, rfl⟩ : ∃ k, fuel = k + 2 := ⟨fuel - 2, by omega⟩
    rw [cleanLoop_nil]
    simp [cleanLoop_cons, cleanLoop_nil, atElementEnd]
  intro n
  induction n with
  | zero =>
    intro rest hlen fuel fuel1 out dotdot hf _
    have : rest = [] := List.length_eq_zero.mp (by omega)
    subst this
    exact base fuel fuel1 out dotdot (by simpa using hf)
  | succ n ih =>
    intro rest hlen fuel fuel1 out dotdot hf hf1
    cases rest with
    | nil => exact base fuel fuel1 out dotdot (by simpa using hf)
    | cons c t =>
      simp only [List.length_cons] at hlen hf hf1
      obtain ⟨k, rfl⟩ : ∃ k, fuel = k + 1 := ⟨fuel - 1, by omega⟩
      obtain ⟨k1, rfl⟩ : ∃ k, fuel1 = k + 1 := ⟨fuel1 - 1, by omega⟩
      rw [List.cons_append, cleanLoop_cons, cleanLoop_cons]
      by_cases hc : c = '/'
      · simp only [hc, beq_self_eq_true, if_true]
        exact ih t (by omega) k k1 out dotdot (by omega) (by omega)
      · have hc1 : (c == '/') = false := by simpa using hc
        simp only [hc1, Bool.false_eq_true, if_false, atElementEnd_append_slash]
        by_cases h2 : (c == '.' && atElementEnd t) = true
        · simp only [h2, if_true]
          exact ih t (by omega) k k1 out dotdot (by omega) (by omega)
        · simp only [h2, if_false]
          have hdrop : ((c :: (t ++ ['/', '.'])).dropWhile (fun x => x != '/'))
              = (c :: t).dropWhile (fun x => x != '/') ++ ['/', '.'] := by
            rw [← List.cons_append, dropWhile_append_slash]
          have htake : ((c :: (t ++ ['/', '.'])).takeWhile (fun x => x != '/'))
              = (c :: t).takeWhile (fun x => x != '/') := by
            rw [← List.cons_append, takeWhile_append_slash]
          have hdl : ((c :: t).dropWhile (fun x => x != '/')).length ≤ t.length := by
            simp only [List.dropWhile_cons, bne_iff_ne, ne_eq, hc, not_false_eq_true,
              decide_True, if_true]
            exact dropWhile_length_le t
          cases t with
          | nil =>
            have h3 : (c == '.') = false := by
              simpa [atElementEnd] using h2
            simp only [h3, Bool.false_and, Bool.false_eq_true, if_false]
            rw [hdrop, htake]
            simp only [List.length_nil] at hlen hf hf1 hdl
            exact ih _ (by omega) k k1 _ dotdot (by omega) (by omega)
          | cons c2 t2 =>
            simp only [List.cons_append, List.head?_cons, List.drop_one, List.tail_cons,
              atElementEnd_append_slash]
            simp only [List.length_cons] at hlen hf hf1 hdl
            by_cases h4 : (c == '.' && some c2 == some '.' && atElementEnd t2) = true
            · simp only [h4, if_true]
              by_cases h5 : out.length > dotdot
              · simp only [h5, if_true]
                exact ih t2 (by omega) k k1 _ dotdot (by omega) (by omega)
              · simp only [h5, if_false]
                by_cases h6 : (!rooted) = true
                · simp only [h6, if_true]
                  exact ih t2 (by omega) k k1 _ _ (by omega) (by omega)
                · simp only [h6, if_false]
                  exact ih t2 (by omega) k k1 _ _ (by omega) (by omega)
            · simp only [h4, if_false]
              rw [← List.cons_append, ← List.cons_append, dropWhile_append_slash,
                takeWhile_append_slash]
              exact ih _ (by omega) k k1 _ dotdot (by omega) (by omega)

theorem cleanChars_slash_dot (p : List Char) (hp : p ≠ []) :
    cleanChars (p ++ ['/', '.']) = cleanChars p := by
  obtain ⟨c, t, rfl⟩ : ∃ c t, p = c :: t := by
    cases p with
    | nil => exact absurd rfl hp
    | cons c t => exact ⟨c, t, rfl⟩
  have hloop : ∀ (rooted : Bool) (rest out : List Char) (dotdot : Nat), rest.length ≤ t.length + 1 →
      cleanLoop rooted (c :: t ++ ['/', '.']).length (rest ++ ['/', '.']) out dotdot
        = cleanLoop rooted (c :: t).length rest out dotdot := by
    intro rooted rest out dotdot hlen
    exact cleanLoop_slash_dot rooted rest.length rest (le_refl _) _ _ out dotdot
      (by simp; omega) (by simp; omega)
  unfold cleanChars
  simp only [List.cons_append, List.head?_cons, List.drop_one, List.tail_cons]
  have h1 := hloop (some c == some '/') t ['/'] 1 (by omega)
  have h2 := hloop (some c == some '/') (c :: t) [] 0 (by simp)
  simp only [List.cons_append] at h1 h2
  rw [h1, h2]

theorem String_data_ne_nil (s : String) (h : s ≠ "") : s.data ≠ [] := by
  intro hd
  apply h
  exact String.ext hd

/-- Joining a directory with `"."` gives the directory cleaned. -/
theorem filepathJoin_dot (destDir : String) :
    filepathJoin [destDir, "."] = filepathClean destDir := by
  by_cases hd : destDir = ""
  · subst hd
    decide
  · have hdata : (String.intercalate "/" [destDir, "."]).data = destDir.data ++ ['/', '.'] := by
      simp [String.intercalate, String.intercalate.go, String.data_append]
    have hne : String.intercalate "/" [destDir, "."] ≠ "" := by
      intro h
      have := congrArg String.data h
      rw [hdata] at this
      simp at this
    simp only [filepathJoin, ne_eq, hd, not_false_eq_true, if_true, filepathClean, hne, if_false,
      hdata]
    rw [cleanChars_slash_dot _ (String_data_ne_nil destDir hd)]

theorem buildDestPath_of_empty_path (destDir : String) (u : URL) (hu : u.path = "") :
    buildDestPath destDir u = filepathClean destDir := by
  simp only [buildDestPath, hu]
  have : pathBase "" = "." := by decide
  rw [this, filepathJoin_dot]

theorem takeWhile_prefix_mono {α : Type} (p : α → Bool) :
    ∀ (a b : List α), a <+: b → a.takeWhile p <+: b.takeWhile p := by
  intro a
  induction a with
  | nil => intro b _; exact List.nil_prefix
  | cons x a ih =>
    intro b hab
    obtain ⟨t, rfl⟩ := hab
    by_cases hx : p x = true
    · simp only [List.cons_append, List.takeWhile_cons, hx, if_true]
      exact (List.prefix_cons_inj x).mpr (ih (a ++ t) (List.prefix_append a t))
    · simp [List.takeWhile_cons, hx]

theorem keptEntries_append_stop {R U : Type} (parse : R → Except Error U)
    (stopPredicate : U → Bool) (r : R) (hr : stops parse stopPredicate r = true)
    (l1 l2 : List R) :
    keptEntries parse stopPredicate (l1 ++ r :: l2) = keptEntries parse stopPredicate l1 := by
  induction l1 with
  | nil => simp [keptEntries, List.takeWhile_cons, hr]
  | cons x l1 ih =>
    simp only [keptEntries] at ih
    by_cases hx : stops parse stopPredicate x = true
    · simp [keptEntries, List.takeWhile_cons, hx]
    · simp [keptEntries, List.takeWhile_cons, hx, ih]

theorem walkedPages_initial_of_ends {R U : Type} (parse : R → Except Error U)
    (stopPredicate : U → Bool) (p : List R × Bool) (ps2 : List (List R × Bool))
    (hp : pageEnds parse stopPredicate p = true) :
    ∀ ps1 : List (List R × Bool),
      walkedPages parse stopPredicate (ps1 ++ p :: ps2) <+: ps1 ++ [p] := by
  intro ps1
  induction ps1 with
  | nil => simp [walkedPages, hp]
  | cons q ps1 ih =>
    by_cases hq : pageEnds parse stopPredicate q = true
    · simp only [List.cons_append, walkedPages, hq, if_true]
      exact (List.prefix_cons_inj q).mpr List.nil_prefix
    · simp only [List.cons_append, walkedPages, hq, if_false]
      exact (List.prefix_cons_inj q).mpr ih

theorem entries_initial {R : Type} (a b : List (List R × Bool)) (h : a <+: b) :
    entries a <+: entries b := by
  obtain ⟨t, rfl⟩ := h
  simp [entries]

theorem replaySeq_processed_initial {U W : Type} (process : W → U → Option Error × W) :
    ∀ (us : List U) (w : W) (processed : List U),
      (replaySeq process us w processed).processed <+: processed ++ us := by
  intro us
  induction us with
  | nil => intro w processed; simp [replaySeq]
  | cons u us ih =>
    intro w processed
    rcases hp : process w u with ⟨_ | e, w1⟩
    · simp only [replaySeq, hp]
      have := ih w1 (processed ++ [u])
      simpa using this
    · simp only [replaySeq, hp]
      exact ⟨us, by simp⟩

/-- Claim C10. For a reference that parses to a URL with an empty path, `buildDestPath`
returns the destination directory cleaned (`path.Base` of the empty path is `.`, and the
join of the directory with `.` is the directory cleaned), which is the directory itself
when it is given in cleaned form; so `stopPredicate` is true exactly when that directory
exists. When it exists and the fetches of the walked pages succeed and the entries before
the first stopping one parse, the run ends after fetching no page beyond the one that
holds the reference, and its `process` calls are calls on entries that precede the
reference. -/
theorem empty_path_reference_is_stop_marker {R F : Type}
    (destDir : String) (u : URL) (fetch : F → FetchResult R × F)
    (parse : R → Except Error URL)
    (process : World String → URL → Option Error × World String)
    (f : F) (w : World String) (ps1 ps2 : List (List R × Bool)) (l1 l2 : List R) (r : R)
    (hasNext : Bool) (fuel : Nat)
    (hu : u.path = "")
    (hr : parse r = .ok u)
    (hexists : fileExists w.files (filepathClean destDir) = true)
    (hserve : Serves fetch f ((walkedPages parse (stopPredicate (buildDestPath destDir) w)
        (ps1 ++ (l1 ++ r :: l2, hasNext) :: ps2)).map pageResponse))
    (hparse : ∀ x ∈ keptEntries parse (stopPredicate (buildDestPath destDir) w)
        (entries (walkedPages parse (stopPredicate (buildDestPath destDir) w)
          (ps1 ++ (l1 ++ r :: l2, hasNext) :: ps2))), ∃ v, parse x = .ok v)
    (hfuel : ps1.length + 1 ≤ fuel) :
    buildDestPath destDir u = filepathClean destDir ∧
    (∀ w1 : World String, stopPredicate (buildDestPath destDir) w1 u
        = fileExists w1.files (filepathClean destDir)) ∧
    (filepathClean destDir = destDir →
      buildDestPath destDir u = destDir ∧
      ∀ w1 : World String, stopPredicate (buildDestPath destDir) w1 u
        = fileExists w1.files destDir) ∧
    ∃ out, fetchUntilThenProcessInReversedOrder fetch parse
          (stopPredicate (buildDestPath destDir)) process fuel f w = some out ∧
      out.fetches ≤ ps1.length + 1 ∧
      out.processed.Sublist
        ((keptEntries parse (stopPredicate (buildDestPath destDir) w)
          (entries ps1 ++ l1)).filterMap (urlOf parse)).reverse := by
  have hdest := buildDestPath_of_empty_path destDir u hu
  have hstop : ∀ w1 : World String, stopPredicate (buildDestPath destDir) w1 u
      = fileExists w1.files (filepathClean destDir) := by
    intro w1
    simp [stopPredicate, hdest]
  refine ⟨hdest, hstop, ?_, ?_⟩
  · intro hclean
    refine ⟨hdest.trans hclean, fun w1 => ?_⟩
    rw [hstop w1, hclean]
  have hrs : stops parse (stopPredicate (buildDestPath destDir) w) r = true := by
    simp [stops, hr, hstop, hexists]
  have hpe : pageEnds parse (stopPredicate (buildDestPath destDir) w) (l1 ++ r :: l2, hasNext)
      = true := by
    simp only [pageEnds, Bool.or_eq_true]
    right
    exact List.any_eq_true.mpr ⟨r, by simp, hrs⟩
  have hpre := walkedPages_initial_of_ends parse (stopPredicate (buildDestPath destDir) w)
    (l1 ++ r :: l2, hasNext) ps2 hpe ps1
  have hlen := hpre.length_le
  simp only [List.length_append, List.length_singleton] at hlen
  have hrun := fetchUntil_walked fetch parse (stopPredicate (buildDestPath destDir)) process f w
    (ps1 ++ (l1 ++ r :: l2, hasNext) :: ps2) fuel
    ⟨(l1 ++ r :: l2, hasNext), by simp, hpe⟩ hserve hparse (by omega)
  refine ⟨_, hrun, hlen, ?_⟩
  have hkept : keptEntries parse (stopPredicate (buildDestPath destDir) w)
      (entries (walkedPages parse (stopPredicate (buildDestPath destDir) w)
        (ps1 ++ (l1 ++ r :: l2, hasNext) :: ps2)))
      <+: keptEntries parse (stopPredicate (buildDestPath destDir) w) (entries ps1 ++ l1) := by
    have h1 := takeWhile_prefix_mono
      (fun x => !stops parse (stopPredicate (buildDestPath destDir) w) x) _ _
      (entries_initial _ _ hpre)
    have h2 : entries (ps1 ++ [(l1 ++ r :: l2, hasNext)]) = (entries ps1 ++ l1) ++ r :: l2 := by
      simp [entries]
    rw [h2] at h1
    have h3 := keptEntries_append_stop parse (stopPredicate (buildDestPath destDir) w) r hrs
      (entries ps1 ++ l1) l2
    simp only [keptEntries] at h3 ⊢
    rw [h3] at h1
    exact h1
  have hsuffix := List.reverse_suffix.mpr (hkept.filterMap (urlOf parse))
  have hprefix := replaySeq_processed_initial process
    (keptUrls parse (stopPredicate (buildDestPath destDir) w)
      (ps1 ++ (l1 ++ r :: l2, hasNext) :: ps2)).reverse w []
  simp only [List.nil_append] at hprefix
  exact hprefix.sublist.trans hsuffix.sublist

/-- Witness of C10: the directory `out`, given in cleaned form, exists; the page holds
`a.jpg`, the empty reference and `b.jpg`. -/
theorem empty_path_reference_is_stop_marker_witness :
    filepathClean "out" = "out" ∧ buildDestPath "out" ⟨""⟩ = "out" ∧
    (∀ w1 : World String, stopPredicate (buildDestPath "out") w1 ⟨""⟩
        = fileExists w1.files "out") ∧
    ∃ out, fetchUntilThenProcessInReversedOrder feedFetch (fun r : String => Except.ok (URL.mk r))
          (stopPredicate (buildDestPath "out")) (fun w _ => (none, w)) 1
          [FetchResult.ok ["a.jpg", "", "b.jpg"] false]
          ⟨fun p => if p = "out" then .complete else .absent, 0⟩ = some out ∧
      out.fetches ≤ 0 + 1 ∧
      out.processed.Sublist
        ((keptEntries (fun r : String => Except.ok (URL.mk r))
          (stopPredicate (buildDestPath "out")
            ⟨fun p => if p = "out" then .complete else .absent, 0⟩)
          (entries [] ++ ["a.jpg"])).filterMap
            (urlOf (fun r : String => Except.ok (URL.mk r)))).reverse := by
  have h := empty_path_reference_is_stop_marker "out" ⟨""⟩ feedFetch
    (fun r : String => Except.ok (URL.mk r)) (fun w _ => (none, w))
    [FetchResult.ok ["a.jpg", "", "b.jpg"] false]
    ⟨fun p => if p = "out" then .complete else .absent, 0⟩ [] [] ["a.jpg"] ["b.jpg"] ""
    false 1 rfl rfl (by decide)
    (by simp [walkedPages, pageEnds, Serves, feedFetch, pageResponse])
    (by intro x _; exact ⟨⟨x⟩, rfl⟩) (by simp)
  have hclean : filepathClean "out" = "out" := by decide
  exact ⟨hclean, (h.2.2.1 hclean).1, (h.2.2.1 hclean).2, h.2.2.2⟩

/-! ## Resuming -/

theorem scanPage_acc_initial {R U : Type} (parse : R → Except Error U) (stopPredicate : U → Bool) :
    ∀ (urls : List R) (acc acc1 : List U) (s s1 : Bool),
      scanPage parse stopPredicate urls acc s = .done acc1 s1 → acc <+: acc1 := by
  intro urls
  induction urls with
  | nil =>
    intro acc acc1 s s1 h
    simp only [scanPage, Scan.done.injEq] at h
    rw [h.1]
  | cons r rest ih =>
    intro acc acc1 s s1 h
    rcases hp : parse r with e | u
    · simp [scanPage, hp] at h
    · by_cases hst : stopPredicate u = true
      · simp only [scanPage, hp, hst, if_true, Scan.done.injEq] at h
        rw [h.1]
      · simp only [scanPage, hp, hst, Bool.false_eq_true, if_false] at h
        exact (List.prefix_append acc [u]).trans (ih _ _ _ _ h)

theorem collectLoop_acc_initial {R U F : Type} (fetch : F → FetchResult R × F)
    (parse : R → Except Error U) (stopPredicate : U → Bool) :
    ∀ (fuel : Nat) (stop : Bool) (f f1 : F) (acc batch : List U) (n n1 : Nat),
      collectLoop fetch parse stopPredicate fuel stop f acc n = some ⟨.ok batch, f1, n1⟩ →
      acc <+: batch := by
  intro fuel
  induction fuel with
  | zero =>
    intro stop f f1 acc batch n n1 h
    cases stop
    · simp [collectLoop_zero] at h
    · simp only [collectLoop_stop, Option.some.injEq, Collected.mk.injEq, Except.ok.injEq] at h
      rw [h.1]
  | succ fuel ih =>
    intro stop f f1 acc batch n n1 h
    cases stop
    · rw [collectLoop_succ] at h
      rcases hf : fetch f with ⟨_ | _, f2⟩
      · rw [hf] at h
        simp only at h
        rcases hs : scanPage parse stopPredicate ‹List R› acc (false || !‹Bool›) with _ | ⟨acc1, s1⟩
        · rw [hs] at h
          simp at h
        · rw [hs] at h
          simp only at h
          exact (scanPage_acc_initial parse stopPredicate _ _ _ _ _ hs).trans (ih _ _ _ _ _ _ _ h)
      · rw [hf] at h
        simp at h
    · simp only [collectLoop_stop, Option.some.injEq, Collected.mk.injEq, Except.ok.injEq] at h
      rw [h.1]

/-- A page that added nothing to an empty batch under one predicate is scanned in the
same way under any predicate that accepts more. -/
theorem scanPage_nil_of_le {R U : Type} (parse : R → Except Error U) (p1 p2 : U → Bool)
    (hle : ∀ u, p1 u = true → p2 u = true) (urls : List R) (s s1 : Bool)
    (h : scanPage parse p1 urls [] s = .done [] s1) :
    scanPage parse p2 urls [] s = .done [] s1 := by
  cases urls with
  | nil => simpa [scanPage] using h
  | cons r rest =>
    rcases hp : parse r with e | u
    · simp [scanPage, hp] at h
    · by_cases hst : p1 u = true
      · simp only [scanPage, hp, hst, if_true, Scan.done.injEq, true_and] at h
        simp [scanPage, hp, hle u hst, h]
      · simp only [scanPage, hp, hst, Bool.false_eq_true, if_false] at h
        have := scanPage_acc_initial parse p1 rest _ _ _ _ h
        simp at this

/-- A page that put `u1` first into an empty batch is left at once by a predicate that
accepts `u1`. -/
theorem scanPage_stops_at_head {R U : Type} (parse : R → Except Error U) (p1 p2 : U → Bool)
    (urls : List R) (s s1 : Bool) (u1 : U) (t : List U) (h2 : p2 u1 = true)
    (h : scanPage parse p1 urls [] s = .done (u1 :: t) s1) :
    scanPage parse p2 urls [] s = .done [] true := by
  cases urls with
  | nil => simp [scanPage] at h
  | cons r rest =>
    rcases hp : parse r with e | u
    · simp [scanPage, hp] at h
    · by_cases hst : p1 u = true
      · simp [scanPage, hp, hst] at h
      · simp only [scanPage, hp, hst, Bool.false_eq_true, if_false, List.nil_append] at h
        have hpre := scanPage_acc_initial parse p1 rest _ _ _ _ h
        obtain ⟨t1, ht1⟩ := hpre
        simp only [List.singleton_append, List.cons.injEq] at ht1
        rw [ht1.1] at hp
        simp [scanPage, hp, h2]

/-- The collection phase of a second run: when the first run collected a batch and the
second predicate accepts whatever the first accepted, and the head of that batch, the
second run collects nothing. -/
theorem collectLoop_second_run {R U F : Type} (fetch : F → FetchResult R × F)
    (parse : R → Except Error U) (p1 p2 : U → Bool)
    (hle : ∀ u, p1 u = true → p2 u = true) :
    ∀ (fuel1 fuel2 : Nat) (stop : Bool) (f f1 : F) (batch : List U) (n n1 : Nat),
      fuel1 ≤ fuel2 →
      collectLoop fetch parse p1 fuel1 stop f [] n = some ⟨.ok batch, f1, n1⟩ →
      (∀ u, batch.head? = some u → p2 u = true) →
      ∃ f2 n2, collectLoop fetch parse p2 fuel2 stop f [] n = some ⟨.ok [], f2, n2⟩ := by
  intro fuel1
  induction fuel1 with
  | zero =>
    intro fuel2 stop f f1 batch n n1 _ h _
    cases stop
    · simp [collectLoop_zero] at h
    · exact ⟨f, n, collectLoop_stop fetch parse p2 fuel2 f [] n⟩
  | succ fuel1 ih =>
    intro fuel2 stop f f1 batch n n1 hfuel h hhead
    cases stop
    · obtain ⟨k2, rfl⟩ : ∃ k, fuel2 = k + 1 := ⟨fuel2 - 1, by omega⟩
      rw [collectLoop_succ] at h
      rw [collectLoop_succ]
      rcases hf : fetch f with ⟨_ | _, f2⟩
      · rw [hf] at h
        simp only at h ⊢
        rcases hs : scanPage parse p1 ‹List R› [] (false || !‹Bool›) with _ | ⟨acc1, s1⟩
        · rw [hs] at h
          simp at h
        · rw [hs] at h
          simp only at h
          cases acc1 with
          | nil =>
            rw [scanPage_nil_of_le parse p1 p2 hle _ _ _ hs]
            exact ih k2 s1 f2 f1 batch (n + 1) n1 (by omega) h hhead
          | cons u1 t =>
            have hpre := collectLoop_acc_initial fetch parse p1 _ _ _ _ _ _ _ _ h
            obtain ⟨t1, ht1⟩ := hpre
            have hu1 : p2 u1 = true := hhead u1 (by rw [← ht1]; rfl)
            rw [scanPage_stops_at_head parse p1 p2 _ _ _ u1 t hu1 hs]
            exact ⟨f2, n + 1, collectLoop_stop fetch parse p2 k2 f2 [] (n + 1)⟩
      · rw [hf] at h
        simp at h
    · exact ⟨f, n, collectLoop_stop fetch parse p2 fuel2 f [] n⟩

/-- The downloader never removes a file. -/
theorem buildDownloader_keeps_files {U P : Type} [DecidableEq P] (buildDest : U → P)
    (overwrite : Bool) (net : Nat → U → Download) (w : World P) (u : U) (p : P)
    (h : fileExists w.files p = true) :
    fileExists (buildDownloader buildDest overwrite net w u).2.files p = true := by
  unfold buildDownloader
  simp only
  split
  · exact h
  · split <;> simp only [] <;> first
      | exact h
      | (simp only [fileExists, setFile] at h ⊢
         split <;> simp_all)

/-- After a download that returned `nil` the destination exists. -/
theorem buildDownloader_creates {U P : Type} [DecidableEq P] (buildDest : U → P)
    (overwrite : Bool) (net : Nat → U → Download) (w : World P) (u : U)
    (h : (buildDownloader buildDest overwrite net w u).1 = none) :
    fileExists (buildDownloader buildDest overwrite net w u).2.files (buildDest u) = true := by
  by_cases hc : (fileExists w.files (buildDest u) && !overwrite) = true
  · have hskip : buildDownloader buildDest overwrite net w u = (none, w) := by
      simp [buildDownloader, hc]
    rw [hskip]
    simp only [Bool.and_eq_true] at hc
    exact hc.1
  · cases hn : net w.attempts u <;> simp [buildDownloader, hc, hn] at h ⊢
    simp [fileExists, setFile]

theorem replaySeq_keeps_files {U P : Type} [DecidableEq P] (buildDest : U → P)
    (overwrite : Bool) (net : Nat → U → Download) (p : P) :
    ∀ (us : List U) (w : World P) (processed : List U), fileExists w.files p = true →
      fileExists (replaySeq (buildDownloader buildDest overwrite net) us w processed).world.files p
        = true := by
  intro us
  induction us with
  | nil => intro w processed h; simpa [replaySeq] using h
  | cons u us ih =>
    intro w processed h
    have hk := buildDownloader_keeps_files buildDest overwrite net w u p h
    rcases hp : buildDownloader buildDest overwrite net w u with ⟨_ | e, w1⟩
    · rw [hp] at hk
      simp only [replaySeq, hp]
      exact ih w1 _ hk
    · rw [hp] at hk
      simp only [replaySeq, hp]
      exact hk

theorem replaySeq_nil_creates {U P : Type} [DecidableEq P] (buildDest : U → P)
    (overwrite : Bool) (net : Nat → U → Download) :
    ∀ (us : List U) (w : World P) (processed : List U),
      (replaySeq (buildDownloader buildDest overwrite net) us w processed).ret = .nil →
      ∀ u ∈ us,
        fileExists (replaySeq (buildDownloader buildDest overwrite net) us w processed).world.files
          (buildDest u) = true := by
  intro us
  induction us with
  | nil => intro w processed _ u hu; simp at hu
  | cons x us ih =>
    intro w processed h u hu
    have hc := buildDownloader_creates buildDest overwrite net w x
    rcases hp : buildDownloader buildDest overwrite net w x with ⟨_ | e, w1⟩
    · rw [hp] at hc
      simp only [replaySeq, hp] at h ⊢
      rcases List.mem_cons.mp hu with rfl | hu1
      · exact replaySeq_keeps_files buildDest overwrite net _ us w1 _ (hc rfl)
      · exact ih w1 _ h u hu1
    · simp [replaySeq, hp] at h

/-- Claim C2. With the stop predicate and the downloader of the `collect-twitter` action: when a
first run returns `nil`, a second run from the world the first one left, with the same
fetcher restarted in the same state and whatever the network does, returns `nil`, calls
the downloader zero times and leaves that world unchanged. -/
theorem second_run_materializes_nothing {R U F P : Type} [DecidableEq P]
    (fetch : F → FetchResult R × F) (parse : R → Except Error U) (buildDest : U → P)
    (overwrite : Bool) (net1 net2 : Nat → U → Download) (fuel1 fuel2 : Nat) (f : F)
    (w : World P) (out1 : Outcome U F (World P))
    (hrun1 : collectTwitter fetch parse buildDest overwrite net1 fuel1 f w = some out1)
    (hnil : out1.ret = .nil)
    (hfuel : fuel1 ≤ fuel2) :
    ∃ out2, collectTwitter fetch parse buildDest overwrite net2 fuel2 f out1.world = some out2 ∧
      out2.ret = .nil ∧ out2.processed = [] ∧ out2.world = out1.world := by
  unfold collectTwitter fetchUntilThenProcessInReversedOrder at hrun1
  rcases hc : collectLoop fetch parse (stopPredicate buildDest w) fuel1 false f [] 0
    with _ | ⟨(e | batch), f1, n1⟩
  · rw [hc] at hrun1
    simp at hrun1
  · rw [hc] at hrun1
    simp only [Option.some.injEq] at hrun1
    rw [← hrun1] at hnil
    simp at hnil
  · rw [hc] at hrun1
    simp only [Option.some.injEq, replayLoop_eq_replaySeq] at hrun1
    subst hrun1
    simp only at hnil ⊢
    have hle : ∀ u, stopPredicate buildDest w u = true →
        stopPredicate buildDest
          (replaySeq (buildDownloader buildDest overwrite net1) batch.reverse w []).world u
          = true := by
      intro u hu
      exact replaySeq_keeps_files buildDest overwrite net1 _ _ w [] hu
    have hhead : ∀ u, batch.head? = some u →
        stopPredicate buildDest
          (replaySeq (buildDownloader buildDest overwrite net1) batch.reverse w []).world u
          = true := by
      intro u hu
      have hmem : u ∈ batch.reverse := by
        rw [List.mem_reverse]
        exact List.mem_of_mem_head? hu
      exact replaySeq_nil_creates buildDest overwrite net1 _ w [] hnil u hmem
    obtain ⟨f2, n2, h2⟩ := collectLoop_second_run fetch parse _ _ hle fuel1 fuel2 false f f1
      batch 0 n1 hfuel hc hhead
    refine ⟨⟨.nil, [], n2, f2, _⟩, ?_, rfl, rfl, rfl⟩
    unfold collectTwitter fetchUntilThenProcessInReversedOrder
    rw [h2]
    simp [replayLoop]

/-- Witness of C2: item 2 is on disk, the feed is `[5,4,3]`, `[2,1]`; the first run
downloads 3, 4, 5 and the second run downloads nothing. -/
theorem second_run_materializes_nothing_witness :
    ∃ out1, collectTwitter feedFetch (fun r : Nat => Except.ok r) id false
        (fun _ _ => Download.succeeds) 2
        [FetchResult.ok [5, 4, 3] true, FetchResult.ok [2, 1] false]
        ⟨fun p : Nat => if p = 2 then .complete else .absent, 0⟩ = some out1 ∧
      out1.ret = .nil ∧ out1.processed = [3, 4, 5] ∧
      ∃ out2, collectTwitter feedFetch (fun r : Nat => Except.ok r) id false
          (fun _ _ => Download.succeeds) 2
          [FetchResult.ok [5, 4, 3] true, FetchResult.ok [2, 1] false] out1.world = some out2 ∧
        out2.ret = .nil ∧ out2.processed = [] ∧ out2.world = out1.world :=
  ⟨_, rfl, rfl, rfl,
    second_run_materializes_nothing feedFetch (fun r : Nat => Except.ok r) id false
      (fun _ _ => Download.succeeds) (fun _ _ => Download.succeeds) 2 2
      [FetchResult.ok [5, 4, 3] true, FetchResult.ok [2, 1] false]
      ⟨fun p : Nat => if p = 2 then .complete else .absent, 0⟩ _ rfl rfl (le_refl 2)⟩

/-! ## Finite feeds -/

theorem walkedPages_initial {R U : Type} (parse : R → Except Error U)
    (stopPredicate : U → Bool) :
    ∀ pages : List (List R × Bool), walkedPages parse stopPredicate pages <+: pages := by
  intro pages
  induction pages with
  | nil => simp [walkedPages]
  | cons p ps ih =>
    by_cases hp : pageEnds parse stopPredicate p = true
    · simp only [walkedPages, hp, if_true]
      exact (List.prefix_cons_inj p).mpr List.nil_prefix
    · simp only [walkedPages, hp, if_false]
      exact (List.prefix_cons_inj p).mpr ih

theorem walkedPages_cons_of_ends {R U : Type} (parse : R → Except Error U)
    (stopPredicate : U → Bool) (p : List R × Bool) (ps : List (List R × Bool))
    (hp : pageEnds parse stopPredicate p = true) :
    walkedPages parse stopPredicate (p :: ps) = [p] := by
  simp [walkedPages, hp]

theorem walkedPages_cons_of_not_ends {R U : Type} (parse : R → Except Error U)
    (stopPredicate : U → Bool) (p : List R × Bool) (ps : List (List R × Bool))
    (hp : ¬ pageEnds parse stopPredicate p = true) :
    walkedPages parse stopPredicate (p :: ps) = p :: walkedPages parse stopPredicate ps := by
  rw [walkedPages]
  simp [hp]

theorem serves_of_initial {R F : Type} (fetch : F → FetchResult R × F) :
    ∀ (a b : List (FetchResult R)) (f : F), a <+: b → Serves fetch f b → Serves fetch f a := by
  intro a
  induction a with
  | nil => intro b f _ _; trivial
  | cons x a ih =>
    intro b f hab hb
    obtain ⟨t, rfl⟩ := hab
    obtain ⟨h1, h2⟩ := hb
    exact ⟨h1, ih (a ++ t) _ (List.prefix_append a t) h2⟩

theorem finiteFeed_has_end {R U : Type} (parse : R → Except Error U) (stopPredicate : U → Bool) :
    ∀ pages : List (List R × Bool), finiteFeed pages = true →
      ∃ p ∈ pages, pageEnds parse stopPredicate p = true := by
  intro pages
  induction pages with
  | nil => intro h; simp [finiteFeed] at h
  | cons p ps ih =>
    intro h
    cases ps with
    | nil =>
      simp only [finiteFeed, Bool.not_eq_true'] at h
      exact ⟨p, by simp, by simp [pageEnds, h]⟩
    | cons q qs =>
      simp only [finiteFeed, Bool.and_eq_true] at h
      obtain ⟨x, hx, hxe⟩ := ih h.2
      exact ⟨x, List.mem_cons_of_mem _ hx, hxe⟩

theorem keptEntries_append_of_some_stops {R U : Type} (parse : R → Except Error U)
    (stopPredicate : U → Bool) (l1 l2 : List R)
    (h : l1.any (stops parse stopPredicate) = true) :
    keptEntries parse stopPredicate (l1 ++ l2) = keptEntries parse stopPredicate l1 := by
  obtain ⟨r, hr, hrs⟩ := List.any_eq_true.mp h
  obtain ⟨a, b, rfl⟩ := List.append_of_mem hr
  rw [List.append_assoc, List.cons_append, keptEntries_append_stop parse stopPredicate r hrs,
    keptEntries_append_stop parse stopPredicate r hrs]

/-- On a finite feed the entries kept from the walked pages are the entries of the whole
feed that precede its first stopping reference. -/
theorem keptEntries_walked_eq {R U : Type} (parse : R → Except Error U)
    (stopPredicate : U → Bool) :
    ∀ pages : List (List R × Bool), finiteFeed pages = true →
      keptEntries parse stopPredicate (entries (walkedPages parse stopPredicate pages))
        = keptEntries parse stopPredicate (entries pages) := by
  intro pages
  induction pages with
  | nil => intro h; simp [finiteFeed] at h
  | cons p ps ih =>
    intro h
    cases ps with
    | nil =>
      by_cases hp : pageEnds parse stopPredicate p = true <;> simp [walkedPages, hp]
    | cons q qs =>
      simp only [finiteFeed, Bool.and_eq_true] at h
      by_cases hp : pageEnds parse stopPredicate p = true
      · have hany : p.1.any (stops parse stopPredicate) = true := by
          simp only [pageEnds, h.1, Bool.not_true, Bool.false_or] at hp
          exact hp
        rw [walkedPages_cons_of_ends parse stopPredicate p _ hp]
        rw [entries_cons, entries_cons,
          keptEntries_append_of_some_stops parse stopPredicate _ _ hany,
          keptEntries_append_of_some_stops parse stopPredicate _ _ hany]
      · have hnone : p.1.any (stops parse stopPredicate) = false := by
          simp only [pageEnds, h.1, Bool.not_true, Bool.false_or] at hp
          simpa using hp
        rw [walkedPages_cons_of_not_ends parse stopPredicate p _ hp]
        rw [entries_cons, entries_cons,
          keptEntries_append_of_none_stops parse stopPredicate _ _ hnone,
          keptEntries_append_of_none_stops parse stopPredicate _ _ hnone, ih h.2]

/-- When every entry parses, the URLs of the kept entries are the URLs before the first
one the predicate accepts. -/
theorem keptEntries_urls {R U : Type} (parse : R → Except Error U) (stopPredicate : U → Bool) :
    ∀ l : List R, (∀ r ∈ l, ∃ u, parse r = .ok u) →
      (keptEntries parse stopPredicate l).filterMap (urlOf parse)
        = (l.filterMap (urlOf parse)).takeWhile (fun u => !stopPredicate u) := by
  intro l
  induction l with
  | nil => intro _; simp [keptEntries]
  | cons r l ih =>
    intro h
    obtain ⟨u, hu⟩ := h r (List.mem_cons_self _ _)
    have hurl : urlOf parse r = some u := by simp [urlOf, hu]
    have ih1 := ih (fun x hx => h x (List.mem_cons_of_mem _ hx))
    simp only [keptEntries] at ih1
    have hst : stops parse stopPredicate r = stopPredicate u := by simp [stops, hu]
    by_cases hs : stopPredicate u = true
    · simp [keptEntries, List.takeWhile_cons, hst, hs, List.filterMap_cons, hurl]
    · simp [keptEntries, List.takeWhile_cons, hst, hs, List.filterMap_cons, hurl, ih1]

/-- The function on a finite feed all of whose entries parse: `process` is called on the
URLs of the feed that precede the first one the stop predicate accepts, last first, up to the first
failure. -/
theorem fetchUntil_feed {R U F W : Type} (fetch : F → FetchResult R × F)
    (parse : R → Except Error U) (stopPredicate : W → U → Bool)
    (process : W → U → Option Error × W) (f : F) (w : W) (pages : List (List R × Bool))
    (fuel : Nat)
    (hfeed : finiteFeed pages = true)
    (hserve : Serves fetch f (pages.map pageResponse))
    (hparse : ∀ r ∈ entries pages, ∃ u, parse r = .ok u)
    (hfuel : pages.length ≤ fuel) :
    ∃ n f1, fetchUntilThenProcessInReversedOrder fetch parse stopPredicate process fuel f w
      = some ⟨(replaySeq process (((entries pages).filterMap (urlOf parse)).takeWhile
                (fun u => !stopPredicate w u)).reverse w []).ret,
              (replaySeq process (((entries pages).filterMap (urlOf parse)).takeWhile
                (fun u => !stopPredicate w u)).reverse w []).processed,
              n, f1,
              (replaySeq process (((entries pages).filterMap (urlOf parse)).takeWhile
                (fun u => !stopPredicate w u)).reverse w []).world⟩ := by
  have hpre := walkedPages_initial parse (stopPredicate w) pages
  have hkept := keptEntries_walked_eq parse (stopPredicate w) pages hfeed
  have hrun := fetchUntil_walked fetch parse stopPredicate process f w pages fuel
    (finiteFeed_has_end parse (stopPredicate w) pages hfeed)
    (serves_of_initial fetch _ _ f (hpre.map pageResponse) hserve)
    (by
      intro r hr
      rw [hkept] at hr
      exact hparse r ((List.takeWhile_prefix _).subset hr))
    (le_trans hpre.length_le hfuel)
  have hurls : keptUrls parse (stopPredicate w) pages
      = ((entries pages).filterMap (urlOf parse)).takeWhile (fun u => !stopPredicate w u) := by
    unfold keptUrls
    rw [hkept, keptEntries_urls parse (stopPredicate w) _ hparse]
  rw [hurls] at hrun
  exact ⟨_, _, hrun⟩

/-! ## Runs of the `collect-twitter` action -/

/-- When every download succeeds the replay calls the downloader on every URL and
returns `nil`. -/
theorem replaySeq_of_net_succeeds {U P : Type} [DecidableEq P] (buildDest : U → P)
    (overwrite : Bool) (net : Nat → U → Download) (hnet : ∀ a u, net a u = .succeeds) :
    ∀ (us : List U) (w : World P) (processed : List U),
      (replaySeq (buildDownloader buildDest overwrite net) us w processed).ret = .nil ∧
      (replaySeq (buildDownloader buildDest overwrite net) us w processed).processed
        = processed ++ us := by
  intro us
  induction us with
  | nil => intro w processed; simp [replaySeq]
  | cons u us ih =>
    intro w processed
    have hnone : (buildDownloader buildDest overwrite net w u).1 = none := by
      unfold buildDownloader
      simp only [hnet]
      split <;> rfl
    rcases hp : buildDownloader buildDest overwrite net w u with ⟨_ | e, w1⟩
    · simp only [replaySeq, hp]
      obtain ⟨h1, h2⟩ := ih w1 (processed ++ [u])
      exact ⟨h1, by rw [h2]; simp⟩
    · rw [hp] at hnone
      simp at hnone

theorem mem_newestFirst (n i : Nat) : i ∈ newestFirst n ↔ 1 ≤ i ∧ i ≤ n := by
  induction n with
  | zero => simp [newestFirst]; omega
  | succ n ih => simp only [newestFirst, List.mem_cons, ih]; omega

/-- The items collected when exactly the items `1, ..., k` are accepted by the stop predicate. -/
theorem newestFirst_takeWhile {U : Type} (url : Nat → U) (p : U → Bool) (k : Nat) :
    ∀ n : Nat, (∀ i, 1 ≤ i → i ≤ n → (p (url i) = true ↔ i ≤ k)) →
      ((newestFirst n).map url).takeWhile (fun u => !p u)
        = ((newestFirst n).take (n - k)).map url := by
  intro n
  induction n with
  | zero => intro _; simp [newestFirst]
  | succ n ih =>
    intro h
    have ih1 := ih (fun i h1 h2 => h i h1 (by omega))
    by_cases hn : n + 1 ≤ k
    · have hp : p (url (n + 1)) = true := (h (n + 1) (by omega) (le_refl _)).mpr hn
      have h0 : n + 1 - k = 0 := by omega
      simp [newestFirst, List.takeWhile_cons, hp, h0]
    · have hp : p (url (n + 1)) = false := by
        have := (h (n + 1) (by omega) (le_refl _)).not.mpr hn
        simpa using this
      have h1 : n + 1 - k = (n - k) + 1 := by omega
      simp [newestFirst, List.takeWhile_cons, hp, h1, ih1]

theorem newestFirst_take_reverse (k : Nat) :
    ∀ n : Nat, ((newestFirst n).take (n - k)).reverse = List.range' (k + 1) (n - k) := by
  intro n
  induction n with
  | zero => simp [newestFirst]
  | succ n ih =>
    by_cases hn : n + 1 ≤ k
    · have h0 : n + 1 - k = 0 := by omega
      simp [h0]
    · have h1 : n + 1 - k = (n - k) + 1 := by omega
      rw [h1]
      simp only [newestFirst, List.take_succ_cons, List.reverse_cons, ih]
      rw [List.range'_concat]
      congr 2
      omega

/-- Claim C4, as amended. For the newest-first feed of the items `n, ..., 1`, cut into
pages in any way, when exactly the files of the oldest items `k, ..., 1` exist and every
fetch and download succeeds, the run calls the downloader exactly on the items
`k+1, ..., n`, oldest first, and returns `nil`. -/
theorem run_downloads_items_newer_than_boundary {R U F P : Type} [DecidableEq P]
    (fetch : F → FetchResult R × F) (parse : R → Except Error U) (buildDest : U → P)
    (overwrite : Bool) (net : Nat → U → Download) (fuel : Nat) (f : F) (w : World P)
    (pages : List (List R × Bool)) (ref : Nat → R) (url : Nat → U) (n k : Nat)
    (hfeed : finiteFeed pages = true)
    (hentries : entries pages = (newestFirst n).map ref)
    (hparse : ∀ i, 1 ≤ i → i ≤ n → parse (ref i) = .ok (url i))
    (hexists : ∀ i, 1 ≤ i → i ≤ n → (fileExists w.files (buildDest (url i)) = true ↔ i ≤ k))
    (hserve : Serves fetch f (pages.map pageResponse))
    (hnet : ∀ a u, net a u = .succeeds)
    (hfuel : pages.length ≤ fuel) :
    ∃ out, collectTwitter fetch parse buildDest overwrite net fuel f w = some out ∧
      out.ret = .nil ∧ out.processed = (List.range' (k + 1) (n - k)).map url := by
  have hparse1 : ∀ r ∈ entries pages, ∃ u, parse r = .ok u := by
    intro r hr
    rw [hentries] at hr
    obtain ⟨i, hi, rfl⟩ := List.mem_map.mp hr
    have := (mem_newestFirst n i).mp hi
    exact ⟨url i, hparse i this.1 this.2⟩
  have hurls : (entries pages).filterMap (urlOf parse) = (newestFirst n).map url := by
    rw [hentries, List.filterMap_map]
    have : ∀ i ∈ newestFirst n, (urlOf parse ∘ ref) i = (some ∘ url) i := by
      intro i hi
      have := (mem_newestFirst n i).mp hi
      simp [urlOf, hparse i this.1 this.2]
    rw [List.filterMap_congr this, List.filterMap_eq_map]
  obtain ⟨m, f1, hrun⟩ := fetchUntil_feed fetch parse (stopPredicate buildDest)
    (buildDownloader buildDest overwrite net) f w pages fuel hfeed hserve hparse1 hfuel
  rw [hurls, newestFirst_takeWhile url (stopPredicate buildDest w) k n hexists] at hrun
  obtain ⟨h1, h2⟩ := replaySeq_of_net_succeeds buildDest overwrite net hnet
    (((newestFirst n).take (n - k)).map url).reverse w []
  refine ⟨_, hrun, h1, ?_⟩
  simp only [h2, List.nil_append]
  rw [← List.map_reverse, newestFirst_take_reverse]

/-- Witness of C4: items 5 to 1 in the pages `[5,4,3]`, `[2,1]`, the files of 2 and 1 exist. -/
theorem run_downloads_items_newer_than_boundary_witness :
    ∃ out, collectTwitter feedFetch (fun r : Nat => Except.ok r) id false
        (fun _ _ => Download.succeeds) 2
        [FetchResult.ok [5, 4, 3] true, FetchResult.ok [2, 1] false]
        ⟨fun p : Nat => if p ≤ 2 then .complete else .absent, 0⟩ = some out ∧
      out.ret = .nil ∧ out.processed = (List.range' (2 + 1) (5 - 2)).map id :=
  run_downloads_items_newer_than_boundary feedFetch (fun r : Nat => Except.ok r) id false
    (fun _ _ => Download.succeeds) 2
    [FetchResult.ok [5, 4, 3] true, FetchResult.ok [2, 1] false]
    ⟨fun p : Nat => if p ≤ 2 then .complete else .absent, 0⟩
    [([5, 4, 3], true), ([2, 1], false)] id id 5 2 rfl rfl (fun _ _ _ => rfl)
    (by intro i _ _; by_cases h : i ≤ 2 <;> simp [fileExists, h])
    (by simp [Serves, feedFetch, pageResponse]) (fun _ _ => rfl) (by simp)

/-- Claim C4 as stated fails: in the feed `[2, 1]` the file of the newest item 2 exists
and the file of item 1 does not; the run stops at item 2 and never downloads item 1. -/
theorem run_with_newest_existing_downloads_nothing :
    fileExists (fun p : Nat => if p = 2 then FileState.complete else .absent) 2 = true ∧
    fileExists (fun p : Nat => if p = 2 then FileState.complete else .absent) 1 = false ∧
    (collectTwitter feedFetch (fun r : Nat => Except.ok r) id false
        (fun _ _ => Download.succeeds) 1 [FetchResult.ok [2, 1] false]
        ⟨fun p : Nat => if p = 2 then .complete else .absent, 0⟩).map
      (fun out => (out.ret, out.processed, out.world.files 1))
      = some (.nil, [], .absent) := by
  decide

/-! ## Resuming after a failed run -/

theorem markComplete_nil {P : Type} [DecidableEq P] (files : P → FileState) :
    markComplete files [] = files := by
  funext p
  simp [markComplete]

theorem markComplete_setFile {P : Type} [DecidableEq P] (files : P → FileState) (d : P)
    (ds : List P) :
    markComplete (setFile files d .complete) ds = markComplete files (d :: ds) := by
  funext p
  by_cases h1 : p ∈ ds <;> by_cases h2 : p = d <;> simp [markComplete, setFile, h1, h2]

theorem markComplete_markComplete {P : Type} [DecidableEq P] (files : P → FileState)
    (ds1 ds2 : List P) :
    markComplete (markComplete files ds1) ds2 = markComplete files (ds1 ++ ds2) := by
  funext p
  by_cases h1 : p ∈ ds1 <;> by_cases h2 : p ∈ ds2 <;> simp [markComplete, h1, h2]

theorem takeWhile_append_of_all {α : Type} (p : α → Bool) (a d : List α)
    (ha : ∀ x ∈ a, p x = true) (hd : ∀ x ∈ d, p x = false) :
    (a ++ d).takeWhile p = a := by
  induction a with
  | nil =>
    cases d with
    | nil => rfl
    | cons y d => simp [List.takeWhile_cons, hd y (List.mem_cons_self _ _)]
  | cons x a ih =>
    simp only [List.cons_append, List.takeWhile_cons, ha x (List.mem_cons_self _ _), if_true]
    rw [ih (fun y hy => ha y (List.mem_cons_of_mem _ hy))]

/-- The replay on URLs whose destinations are pairwise distinct and do not exist: when
it returns `nil` every destination is complete; when it fails before a file is made, the
destinations of the URLs handled before the failing one are complete and nothing else
has changed. -/
theorem replaySeq_fresh {U P : Type} [DecidableEq P] (buildDest : U → P)
    (overwrite : Bool) (net : Nat → U → Download) :
    ∀ (us : List U) (w : World P) (processed : List U),
      (us.map buildDest).Nodup → (∀ u ∈ us, fileExists w.files (buildDest u) = false) →
      ((replaySeq (buildDownloader buildDest overwrite net) us w processed).ret = .nil →
        (replaySeq (buildDownloader buildDest overwrite net) us w processed).world.files
          = markComplete w.files (us.map buildDest)) ∧
      (∀ ctx e,
        (replaySeq (buildDownloader buildDest overwrite net) us w processed).ret
          = .err (.wrap "process media" (.wrap ctx e)) →
        ctx ≠ "copy stream" →
        ∃ done x rest, us = done ++ x :: rest ∧
          (replaySeq (buildDownloader buildDest overwrite net) us w processed).world.files
            = markComplete w.files (done.map buildDest)) := by
  intro us
  induction us with
  | nil =>
    intro w processed _ _
    refine ⟨fun _ => ?_, fun ctx e h _ => ?_⟩
    · simp [replaySeq, markComplete_nil]
    · simp [replaySeq] at h
  | cons u us ih =>
    intro w processed hnodup hfresh
    have hu : fileExists w.files (buildDest u) = false := hfresh u (List.mem_cons_self _ _)
    simp only [List.map_cons, List.nodup_cons] at hnodup
    cases hn : net w.attempts u with
    | buildRequestFails e1 =>
      have hd : buildDownloader buildDest overwrite net w u
          = (some (.wrap "build http request" e1), ⟨w.files, w.attempts + 1⟩) := by
        simp [buildDownloader, hu, hn]
      simp only [replaySeq, hd]
      refine ⟨fun h => by simp at h, fun ctx e _ _ => ⟨[], u, us, rfl, ?_⟩⟩
      simp [markComplete_nil]
    | requestFails e1 =>
      have hd : buildDownloader buildDest overwrite net w u
          = (some (.wrap "do http request" e1), ⟨w.files, w.attempts + 1⟩) := by
        simp [buildDownloader, hu, hn]
      simp only [replaySeq, hd]
      refine ⟨fun h => by simp at h, fun ctx e _ _ => ⟨[], u, us, rfl, ?_⟩⟩
      simp [markComplete_nil]
    | createFails e1 =>
      have hd : buildDownloader buildDest overwrite net w u
          = (some (.wrap "create file" e1), ⟨w.files, w.attempts + 1⟩) := by
        simp [buildDownloader, hu, hn]
      simp only [replaySeq, hd]
      refine ⟨fun h => by simp at h, fun ctx e _ _ => ⟨[], u, us, rfl, ?_⟩⟩
      simp [markComplete_nil]
    | copyFails e1 =>
      have hd : buildDownloader buildDest overwrite net w u
          = (some (.wrap "copy stream" e1),
              ⟨setFile w.files (buildDest u) .incomplete, w.attempts + 1⟩) := by
        simp [buildDownloader, hu, hn]
      simp only [replaySeq, hd]
      refine ⟨fun h => by simp at h, fun ctx e h hctx => ?_⟩
      simp only [Ret.err.injEq, Error.wrap.injEq, true_and] at h
      exact absurd h.1.symm hctx
    | succeeds =>
      have hd : buildDownloader buildDest overwrite net w u
          = (none, ⟨setFile w.files (buildDest u) .complete, w.attempts + 1⟩) := by
        simp [buildDownloader, hu, hn]
      simp only [replaySeq, hd]
      have hfresh1 : ∀ v ∈ us,
          fileExists (setFile w.files (buildDest u) .complete) (buildDest v) = false := by
        intro v hv
        have hne : buildDest v ≠ buildDest u := by
          intro heq
          exact hnodup.1 (heq ▸ List.mem_map_of_mem buildDest hv)
        have := hfresh v (List.mem_cons_of_mem _ hv)
        simpa [fileExists, setFile, hne] using this
      obtain ⟨ih1, ih2⟩ := ih ⟨setFile w.files (buildDest u) .complete, w.attempts + 1⟩
        (processed ++ [u]) hnodup.2 hfresh1
      refine ⟨fun h => ?_, fun ctx e h hctx => ?_⟩
      · rw [ih1 h, markComplete_setFile]
        rfl
      · obtain ⟨done, x, rest, hsplit, hfiles⟩ := ih2 ctx e h hctx
        refine ⟨u :: done, x, rest, by simp [hsplit], ?_⟩
        rw [hfiles, markComplete_setFile]
        rfl

/-- Claim C3, as amended. On a finite feed whose references parse to URLs with pairwise
distinct destinations, none of which exists, when a first run aborts because a download
failed before its file was made (building the request, the HTTP request or creating the
file), a second run on the unchanged feed in which every download succeeds returns `nil`
and leaves every destination complete, with the same files as a single run without
failure leaves. -/
theorem second_run_completes_after_early_failure {R U F P : Type} [DecidableEq P]
    (fetch : F → FetchResult R × F) (parse : R → Except Error U) (buildDest : U → P)
    (overwrite : Bool) (net1 net2 : Nat → U → Download) (fuel : Nat) (f : F) (w : World P)
    (pages : List (List R × Bool)) (out1 : Outcome U F (World P)) (ctx : String) (e : Error)
    (hfeed : finiteFeed pages = true)
    (hserve : Serves fetch f (pages.map pageResponse))
    (hparse : ∀ r ∈ entries pages, ∃ u, parse r = .ok u)
    (hdistinct : (((entries pages).filterMap (urlOf parse)).map buildDest).Nodup)
    (hnone : ∀ u ∈ (entries pages).filterMap (urlOf parse),
      fileExists w.files (buildDest u) = false)
    (hrun1 : collectTwitter fetch parse buildDest overwrite net1 fuel f w = some out1)
    (hfail : out1.ret = .err (.wrap "process media" (.wrap ctx e)))
    (hctx : ctx ≠ "copy stream")
    (hnet2 : ∀ a u, net2 a u = .succeeds)
    (hfuel : pages.length ≤ fuel) :
    ∃ out2, collectTwitter fetch parse buildDest overwrite net2 fuel f out1.world = some out2 ∧
      out2.ret = .nil ∧
      (∀ u ∈ (entries pages).filterMap (urlOf parse),
        out2.world.files (buildDest u) = .complete) ∧
      ∃ out3, collectTwitter fetch parse buildDest overwrite net2 fuel f w = some out3 ∧
        out3.ret = .nil ∧ out3.world.files = out2.world.files := by
  have hall : ((entries pages).filterMap (urlOf parse)).takeWhile
      (fun u => !stopPredicate buildDest w u) = (entries pages).filterMap (urlOf parse) := by
    rw [List.takeWhile_eq_self_iff]
    intro u hu
    simp [stopPredicate, hnone u hu]
  have hnodup : ((((entries pages).filterMap (urlOf parse)).reverse).map buildDest).Nodup := by
    rw [List.map_reverse]
    exact List.nodup_reverse.mpr hdistinct
  have hnone1 : ∀ u ∈ ((entries pages).filterMap (urlOf parse)).reverse,
      fileExists w.files (buildDest u) = false :=
    fun u hu => hnone u (List.mem_reverse.mp hu)
  -- the first run
  obtain ⟨m1, f1, h1⟩ := fetchUntil_feed fetch parse (stopPredicate buildDest)
    (buildDownloader buildDest overwrite net1) f w pages fuel hfeed hserve hparse hfuel
  rw [hall] at h1
  unfold collectTwitter at hrun1
  rw [h1] at hrun1
  simp only [Option.some.injEq] at hrun1
  subst hrun1
  simp only at hfail ⊢
  obtain ⟨done, x, rest, hsplit, hfiles1⟩ :=
    (replaySeq_fresh buildDest overwrite net1 _ w [] hnodup hnone1).2 ctx e hfail hctx
  generalize hw1 : (replaySeq (buildDownloader buildDest overwrite net1)
    ((entries pages).filterMap (urlOf parse)).reverse w []).world = w1 at hfiles1 ⊢
  have hurls : (entries pages).filterMap (urlOf parse)
      = (rest.reverse ++ [x]) ++ done.reverse := by
    have := congrArg List.reverse hsplit
    simpa using this
  rw [hsplit, List.map_append, List.map_cons] at hnodup
  have hnotdone : ∀ u ∈ x :: rest, buildDest u ∉ done.map buildDest := by
    intro u hu hmem
    exact (List.nodup_append.mp hnodup).2.2 hmem
      (by rw [← List.map_cons]; exact List.mem_map_of_mem buildDest hu)
  -- the second run
  obtain ⟨m2, f2, h2⟩ := fetchUntil_feed fetch parse (stopPredicate buildDest)
    (buildDownloader buildDest overwrite net2) f w1 pages fuel hfeed hserve hparse hfuel
  have hkept2 : ((entries pages).filterMap (urlOf parse)).takeWhile
      (fun u => !stopPredicate buildDest w1 u) = rest.reverse ++ [x] := by
    rw [hurls]
    apply takeWhile_append_of_all
    · intro u hu
      have hu1 : u ∈ x :: rest := by
        simpa [or_comm] using hu
      have hfr : fileExists w.files (buildDest u) = false :=
        hnone1 u (by rw [hsplit]; exact List.mem_append_right _ hu1)
      simp only [stopPredicate, hfiles1, fileExists, markComplete, hnotdone u hu1, if_false]
      simpa [fileExists] using hfr
    · intro u hu
      have hu1 : buildDest u ∈ done.map buildDest :=
        List.mem_map_of_mem buildDest (List.mem_reverse.mp hu)
      simp [stopPredicate, hfiles1, fileExists, markComplete, hu1]
  rw [hkept2] at h2
  have hrev : (rest.reverse ++ [x]).reverse = x :: rest := by simp
  rw [hrev] at h2
  have hnodup2 : ((x :: rest).map buildDest).Nodup := (List.nodup_append.mp hnodup).2.1
  have hfresh2 : ∀ u ∈ x :: rest, fileExists w1.files (buildDest u) = false := by
    intro u hu
    have hfr : fileExists w.files (buildDest u) = false :=
      hnone1 u (by rw [hsplit]; exact List.mem_append_right _ hu)
    simp only [hfiles1, fileExists, markComplete, hnotdone u hu, if_false]
    simpa [fileExists] using hfr
  have hret2 := (replaySeq_of_net_succeeds buildDest overwrite net2 hnet2 (x :: rest) w1 []).1
  have hfiles2 := (replaySeq_fresh buildDest overwrite net2 (x :: rest) _ [] hnodup2 hfresh2).1
    hret2
  rw [hfiles1, markComplete_markComplete, ← List.map_append, ← hsplit] at hfiles2
  -- the run without failure
  obtain ⟨m3, f3, h3⟩ := fetchUntil_feed fetch parse (stopPredicate buildDest)
    (buildDownloader buildDest overwrite net2) f w pages fuel hfeed hserve hparse hfuel
  rw [hall] at h3
  have hret3 := (replaySeq_of_net_succeeds buildDest overwrite net2 hnet2
    ((entries pages).filterMap (urlOf parse)).reverse w []).1
  have hnodup3 : ((((entries pages).filterMap (urlOf parse)).reverse).map buildDest).Nodup := by
    rw [List.map_reverse]
    exact List.nodup_reverse.mpr hdistinct
  have hfiles3 := (replaySeq_fresh buildDest overwrite net2 _ w [] hnodup3 hnone1).1 hret3
  refine ⟨_, h2, hret2, ?_, _, h3, hret3, ?_⟩
  · intro u hu
    simp only [hfiles2]
    have : buildDest u ∈ (((entries pages).filterMap (urlOf parse)).reverse).map buildDest :=
      List.mem_map_of_mem buildDest (List.mem_reverse.mpr hu)
    show (if buildDest u ∈ _ then FileState.complete else _) = _
    rw [if_pos this]
  · simp only [hfiles2, hfiles3]

/-- Witness of C3: the feed `[3,2]`, `[1]`, nothing on disk; the first run downloads 1
and fails on the HTTP request for 2; the second run downloads 2 and 3. -/
theorem second_run_completes_after_early_failure_witness :
    ∃ out1, collectTwitter feedFetch (fun r : Nat => Except.ok r) id false
        (fun _ u => if u = 2 then Download.requestFails (.msg "timeout") else .succeeds) 2
        [FetchResult.ok [3, 2] true, FetchResult.ok [1] false]
        ⟨fun _ : Nat => .absent, 0⟩ = some out1 ∧
      out1.ret = .err (.wrap "process media" (.wrap "do http request" (.msg "timeout"))) ∧
      out1.processed = [1, 2] ∧
      ∃ out2, collectTwitter feedFetch (fun r : Nat => Except.ok r) id false
          (fun _ _ => Download.succeeds) 2
          [FetchResult.ok [3, 2] true, FetchResult.ok [1] false] out1.world = some out2 ∧
        out2.ret = .nil ∧
        (∀ u ∈ (entries [([3, 2], true), ([1], false)]).filterMap
            (urlOf (fun r : Nat => Except.ok r)),
          out2.world.files (id u) = .complete) ∧
        ∃ out3, collectTwitter feedFetch (fun r : Nat => Except.ok r) id false
            (fun _ _ => Download.succeeds) 2
            [FetchResult.ok [3, 2] true, FetchResult.ok [1] false]
            ⟨fun _ : Nat => .absent, 0⟩ = some out3 ∧
          out3.ret = .nil ∧ out3.world.files = out2.world.files :=
  ⟨_, rfl, rfl, rfl,
    second_run_completes_after_early_failure feedFetch (fun r : Nat => Except.ok r) id false
      (fun _ u => if u = 2 then Download.requestFails (.msg "timeout") else .succeeds)
      (fun _ _ => Download.succeeds) 2
      [FetchResult.ok [3, 2] true, FetchResult.ok [1] false] ⟨fun _ : Nat => .absent, 0⟩
      [([3, 2], true), ([1], false)] _ "do http request" (.msg "timeout")
      rfl (by simp [Serves, feedFetch, pageResponse]) (fun r _ => ⟨r, rfl⟩) (by decide)
      (fun _ _ => rfl) rfl rfl (by decide) (fun _ _ => rfl) (by simp)⟩

/-- Claim C3 as stated fails: when the first run fails while streaming the body of the
only reference, the file made by `os.Create` is left behind; the second run takes it
for done, downloads nothing and leaves it incomplete. -/
theorem second_run_keeps_incomplete_file :
    ((collectTwitter feedFetch (fun r : Nat => Except.ok r) id false
        (fun _ _ => Download.copyFails (.msg "connection reset")) 1
        [FetchResult.ok [1] false] ⟨fun _ : Nat => .absent, 0⟩).bind
      (fun out1 =>
        (collectTwitter feedFetch (fun r : Nat => Except.ok r) id false
          (fun _ _ => Download.succeeds) 1 [FetchResult.ok [1] false] out1.world).map
        (fun out2 => (out1.ret, out1.processed, out2.ret, out2.processed, out2.world.files 1))))
      = some (.err (.wrap "process media" (.wrap "copy stream" (.msg "connection reset"))),
          [1], .nil, [], .incomplete) := by
  decide

end Mediarchive
